import Mathlib

/-!
# Verification of the abandoning-reorg tree engine

A shallow embedding of the Rust crate `abandoning-reorg` (file `src/lib.rs`):
a bounded-depth, self-pruning tree of records used for fork-choice style
bookkeeping.  Rust `HashMap`s are modelled as association lists (`List (K × V)`)
with list order standing for the unspecified iteration order; `u64` is
modelled as `Nat` (the only subtraction in the source is `saturating_sub`,
which coincides with truncated `Nat` subtraction); panics (`expect`/`unwrap`)
are modelled by `Option`, with `none` meaning the operation panicked; loops
that walk parent links are given explicit fuel since the source does not
guard against cyclic key graphs.
-/

namespace AbandoningReorg

/-! ## Association-list model of `HashMap` -/

def keysOf {K V : Type} (m : List (K × V)) : List K := m.map Prod.fst

/-- Lookup, `HashMap::get`. -/
def findA {K V : Type} [DecidableEq K] : List (K × V) → K → Option V
  | [], _ => none
  | p :: m, k => if p.1 = k then some p.2 else findA m k

/-- `HashMap::contains_key`. -/
def containsA {K V : Type} [DecidableEq K] (m : List (K × V)) (k : K) : Bool :=
  (findA m k).isSome

/-- Removal of a key, `HashMap::remove` (the removed value is `findA m k`). -/
def eraseA {K V : Type} [DecidableEq K] : List (K × V) → K → List (K × V)
  | [], _ => []
  | p :: m, k => if p.1 = k then eraseA m k else p :: eraseA m k

/-- `HashMap::insert`: replace the value when the key is present, else append. -/
def insertA {K V : Type} [DecidableEq K] (m : List (K × V)) (k : K) (v : V) :
    List (K × V) :=
  if containsA m k then m.map (fun p => if p.1 = k then (k, v) else p)
  else m ++ [(k, v)]

/-- `HashMap::get_mut` followed by an in-place update of the value. -/
def updateA {K V : Type} [DecidableEq K] (m : List (K × V)) (k : K) (f : V → V) :
    List (K × V) :=
  m.map (fun p => if p.1 = k then (p.1, f p.2) else p)

/-! ## The data model (`ReorgNode`, `Organizer`) -/

/-- `ReorgNode<K, M>` from the source: one record of the tree. -/
structure ReorgNode (K M : Type) where
  key : K
  height : Nat
  value : Nat
  parent : K
  children : List K
  custom_meta : M
deriving DecidableEq, Repr

/-- `Organizer<K, M>` from the source: the whole engine state. -/
structure Organizer (K M : Type) where
  root : ReorgNode K M
  nodes_by_key : List (K × ReorgNode K M)
  nodes_by_height : List (Nat × List K)
  buffer : List (K × ReorgNode K M)
  height : Nat
  allowed_depth : Nat
  value_based : Bool
deriving DecidableEq, Repr

variable {K M : Type}

/-- `Organizer::new_with`: the root is stored by height only, not by key. -/
def new_with (root : ReorgNode K M) (allowed_depth : Nat) (value_based : Bool) :
    Organizer K M :=
  { root := root
    nodes_by_key := []
    nodes_by_height := [(root.height, [root.key])]
    buffer := []
    height := root.height
    allowed_depth := allowed_depth
    value_based := value_based }

/-- `Organizer::init`: replaces the root (the rest of the state is kept). -/
def initOrg [DecidableEq K] (s : Organizer K M) (first_root : ReorgNode K M) :
    Organizer K M :=
  { s with
    height := first_root.height
    nodes_by_height := insertA s.nodes_by_height first_root.height [first_root.key]
    root := first_root }

/-- `Organizer::allowed_oldest`: `height.saturating_sub(allowed_depth)`. -/
def allowed_oldest (s : Organizer K M) : Nat :=
  s.height - s.allowed_depth

/-! ## Subtree deletion (`delete_children`) -/

/-- One step of the inner `for key in &removeable` loop of `delete_children`:
try to remove `key`; on success queue its children and record the removal. -/
def deleteStep [DecidableEq K]
    (acc : List (K × ReorgNode K M) × List K × List (ReorgNode K M)) (key : K) :
    List (K × ReorgNode K M) × List K × List (ReorgNode K M) :=
  match findA acc.1 key with
  | some r => (eraseA acc.1 key, acc.2.1 ++ r.children, acc.2.2 ++ [r])
  | none => acc

/-- The `while !removeable.is_empty()` loop of `delete_children`. -/
def deleteLoop [DecidableEq K] :
    Nat → List (K × ReorgNode K M) → List K → List (ReorgNode K M) →
      List (K × ReorgNode K M) × List (ReorgNode K M)
  | 0, m, _, ret => (m, ret)
  | fuel + 1, m, removeable, ret =>
    if removeable.isEmpty then (m, ret)
    else
      deleteLoop fuel (removeable.foldl deleteStep (m, [], ret)).1
        (removeable.foldl deleteStep (m, [], ret)).2.1
        (removeable.foldl deleteStep (m, [], ret)).2.2

/-- `delete_children` acting on the raw node store. -/
def deleteFromStore [DecidableEq K] (m : List (K × ReorgNode K M)) (branch_root : K) :
    List (K × ReorgNode K M) × List (ReorgNode K M) :=
  match findA m branch_root with
  | none => (m, [])
  | some removed =>
    deleteLoop (m.length + 2) (eraseA m branch_root) removed.children [removed]

/-- `Organizer::delete_children`: removes the named node and, breadth first,
every node reachable from it through `children` links; returns the removed
records. -/
def delete_children [DecidableEq K] (s : Organizer K M) (branch_root : K) :
    Organizer K M × List (ReorgNode K M) :=
  ({ s with nodes_by_key := (deleteFromStore s.nodes_by_key branch_root).1 },
    (deleteFromStore s.nodes_by_key branch_root).2)

/-! ## Branch selection (`find_longest_branch`) -/

/-- The walk from one head towards the root inside `find_longest_branch`:
follow `parent` links, accumulating 1 per hop (length mode) or the node's
`value` (value mode), stopping when the current node's parent is the root
key (returning the cursor, the root's immediate child) or when the cursor is
missing from the store (returning the cursor unchanged). -/
def branchWalk [DecidableEq K] (store : List (K × ReorgNode K M)) (rootKey : K)
    (useValue : Bool) : Nat → K → Nat → K × Nat
  | 0, cursor, worth => (cursor, worth)
  | fuel + 1, cursor, worth =>
    match findA store cursor with
    | none => (cursor, worth)
    | some node =>
      if node.parent = rootKey then (cursor, worth)
      else branchWalk store rootKey useValue fuel node.parent
             (worth + (if useValue then node.value else 1))

/-- The final selection loop of `find_longest_branch`: starting from
`(K::default(), 0)`, a candidate replaces the current best only when its
worth is strictly greater. -/
def pickGreatest {K : Type} [Inhabited K] (l : List (K × Nat)) : K × Nat :=
  l.foldl (fun acc p => if acc.2 < p.2 then p else acc) (default, 0)

/-- `Organizer::find_longest_branch`.  `none` models the panic of the
`expect` on the frontier-height bucket. -/
def find_longest_branch [DecidableEq K] [Inhabited K] (s : Organizer K M)
    (most_valuable : Option Bool) : Option K :=
  match findA s.nodes_by_height s.height with
  | none => none
  | some heads =>
    let useValue := most_valuable.getD s.value_based
    let lead := heads.foldl
      (fun lb head =>
        insertA lb
          (branchWalk s.nodes_by_key s.root.key useValue
            (s.nodes_by_key.length + 1) head 0).1
          (branchWalk s.nodes_by_key s.root.key useValue
            (s.nodes_by_key.length + 1) head 0).2)
      ([] : List (K × Nat))
    some (pickGreatest lead).1

/-! ## Traversal (`apply_callback`) -/

/-- The `while let Some(node) = ...` loop of `apply_callback`, returning the
list of visited records: a found node whose key equals the stop key ends the
walk without being visited; otherwise the node is visited and the cursor
moves to its parent. -/
def walkLoop [DecidableEq K] (store : List (K × ReorgNode K M)) (stop : Option K) :
    Nat → K → List (ReorgNode K M) → List (ReorgNode K M)
  | 0, _, acc => acc
  | fuel + 1, cursor, acc =>
    match findA store cursor with
    | none => acc
    | some node =>
      match stop with
      | some stopKey =>
        if node.key = stopKey then acc
        else walkLoop store stop fuel node.parent (acc ++ [node])
      | none => walkLoop store stop fuel node.parent (acc ++ [node])

/-- `Organizer::apply_callback`, modelled as the list of records the callback
is invoked on, in invocation order.  `none` models the panic of the `expect`
on a missing head record. -/
def apply_callback_visits [DecidableEq K] (s : Organizer K M)
    (head stop : Option K) (fuel : Nat) : Option (List (ReorgNode K M)) :=
  match head with
  | some h =>
    (match findA s.nodes_by_key h with
     | none => none
     | some head_node =>
       some (walkLoop s.nodes_by_key stop fuel head_node.parent [head_node]))
  | none =>
    match findA s.nodes_by_height s.height with
    | none => some []
    | some heads =>
      if h1 : heads.length = 1 then
        match findA s.nodes_by_key (heads.head (by
            intro he; rw [he] at h1; simp at h1)) with
        | none => none
        | some head_node =>
          some (walkLoop s.nodes_by_key stop fuel head_node.parent [head_node])
      else some []

/-! ## The insert protocol -/

/-- Append a key to the height bucket for `h`, creating the bucket when
absent (the `match self.nodes_by_height.get_mut(&node.height)` block). -/
def pushBucket [DecidableEq K] (byH : List (Nat × List K)) (h : Nat) (k : K) :
    List (Nat × List K) :=
  match findA byH h with
  | some b => insertA byH h (b ++ [k])
  | none => insertA byH h [k]

/-- Append `child` to the `children` of the store entry at `k`
(`parent.children.push(node.key)`). -/
def pushChild [DecidableEq K] (m : List (K × ReorgNode K M)) (k : K) (child : K) :
    List (K × ReorgNode K M) :=
  updateA m k (fun n => { n with children := n.children ++ [child] })

/-- One step of the dead-branch removal loop after a multi-child promotion:
delete the subtree stemming from `dead` unless it is the new root itself. -/
def deadBranchStep [DecidableEq K] (acc : Organizer K M) (dead : K) :
    Organizer K M :=
  if dead = acc.root.key then acc else (delete_children acc dead).1

/-- The root-advancement block at the top of `insert` (the
`if self.root.height == self.allowed_oldest()` match on the number of root
children).  `none` models the `unwrap` panics on a missing promotion target
and the panic inside `find_longest_branch`. -/
def advanceRoot [DecidableEq K] [Inhabited K] (s : Organizer K M)
    (most_valuable : Option Bool) : Option (Organizer K M) :=
  if s.root.height = allowed_oldest s then
    match s.root.children with
    | [] => some s
    | [c] =>
      match findA s.nodes_by_key c with
      | none => none
      | some r =>
        some { s with root := r, nodes_by_key := eraseA s.nodes_by_key c }
    | _ :: _ :: _ =>
      match find_longest_branch s (some (most_valuable.getD s.value_based)) with
      | none => none
      | some w =>
        match findA s.nodes_by_key w with
        | none => none
        | some r =>
          some (s.root.children.foldl deadBranchStep
            { s with root := r, nodes_by_key := eraseA s.nodes_by_key w })
  else some s

/-- One step of the buffer scan at the end of `insert`: an expired buffered
record (height strictly below the threshold) is queued for clearing; one
whose parent is now stored is attached to the parent and queued for
re-insertion.  The accumulator is (reinsert keys, clear keys, node store). -/
def scanStep [DecidableEq K] (thresh : Nat)
    (acc : List K × List K × List (K × ReorgNode K M)) (p : K × ReorgNode K M) :
    List K × List K × List (K × ReorgNode K M) :=
  if p.2.height < thresh then (acc.1, acc.2.1 ++ [p.1], acc.2.2)
  else if containsA acc.2.2 p.2.parent then
    (acc.1 ++ [p.1], acc.2.1, pushChild acc.2.2 p.2.parent p.1)
  else acc

/-- The single scan over the buffer inside the drain at the end of
`insert`. -/
def drainScan [DecidableEq K] (buffer : List (K × ReorgNode K M))
    (thresh : Nat) (store : List (K × ReorgNode K M)) :
    List K × List K × List (K × ReorgNode K M) :=
  buffer.foldl (scanStep thresh)
    (([], [], store) : List K × List K × List (K × ReorgNode K M))

/-- One step of the re-insertion loop: move a found buffered record into the
node store and the height index. -/
def reinsertStep [DecidableEq K] (acc : Organizer K M) (r : K) : Organizer K M :=
  match findA acc.buffer r with
  | none => acc
  | some x =>
    { acc with
      buffer := eraseA acc.buffer r
      nodes_by_height := pushBucket acc.nodes_by_height x.height r
      nodes_by_key := insertA acc.nodes_by_key r x }

/-- One step of the expiry removal loop. -/
def clearStep [DecidableEq K] (acc : Organizer K M) (bc : K) : Organizer K M :=
  { acc with buffer := eraseA acc.buffer bc }

/-- The buffer drain at the end of `insert`: the scan, then the
re-insertion loop, then the expiry removal loop. -/
def drainBuffer [DecidableEq K] (s : Organizer K M) : Organizer K M :=
  let t := drainScan s.buffer (allowed_oldest s) s.nodes_by_key
  (t.2.1).foldl clearStep
    ((t.1).foldl reinsertStep { s with nodes_by_key := t.2.2 })

/-- The commit step of `insert`: save the key by height, take the
candidate's height as the new frontier, store the node. -/
def commitNode [DecidableEq K] (s : Organizer K M) (node : ReorgNode K M) :
    Organizer K M :=
  { s with
    nodes_by_height := pushBucket s.nodes_by_height node.height node.key
    height := node.height
    nodes_by_key := insertA s.nodes_by_key node.key node }

/-- The post-commit cleanup of `insert`: remove the node keyed by the root's
parent, then bulk-evict the height bucket one below the root's height. -/
def cleanupOld [DecidableEq K] (s : Organizer K M) : Organizer K M :=
  let s2 : Organizer K M :=
    { s with nodes_by_key := eraseA s.nodes_by_key s.root.parent }
  match findA s2.nodes_by_height (s2.root.height - 1) with
  | some bucket =>
    { s2 with
      nodes_by_height := eraseA s2.nodes_by_height (s2.root.height - 1)
      nodes_by_key := bucket.foldl (fun m o => eraseA m o) s2.nodes_by_key }
  | none => s2

/-- The tail of `insert` after the candidate has been attached: commit, then
cleanup, then drain the buffer. -/
def commitAndDrain [DecidableEq K] (s : Organizer K M) (node : ReorgNode K M) :
    Organizer K M :=
  drainBuffer (cleanupOld (commitNode s node))

/-- The attach-or-buffer step followed by commit, cleanup and drain. -/
def attachAndFinish [DecidableEq K] (s : Organizer K M) (node : ReorgNode K M) :
    Organizer K M :=
  if containsA s.nodes_by_key node.parent then
    commitAndDrain
      { s with nodes_by_key := pushChild s.nodes_by_key node.parent node.key } node
  else if node.parent = s.root.key then
    commitAndDrain
      { s with root := { s.root with children := s.root.children ++ [node.key] } }
      node
  else { s with buffer := insertA s.buffer node.key node }

/-- `Organizer::insert`.  `none` models the panics reachable through root
advancement; `some` returns the mutated engine (an early silent return
yields the state unchanged). -/
def insert [DecidableEq K] [Inhabited K] (s : Organizer K M)
    (node : ReorgNode K M) (most_valuable : Option Bool) :
    Option (Organizer K M) :=
  if node.height ≤ allowed_oldest s then some s
  else if containsA s.nodes_by_key node.parent = false ∧ node.height ≤ s.height then
    some s
  else
    match advanceRoot s most_valuable with
    | none => none
    | some s1 => some (attachAndFinish s1 node)

/-- `Organizer::highest_nodes` (the `tips()` query; `none` models its
`unwrap`). -/
def highest_nodes [DecidableEq K] (s : Organizer K M) : Option (List K) :=
  findA s.nodes_by_height s.height

/-- `Organizer::check_height_to_key_diff` (the diagnostics query): keys
present in some height bucket but absent from the node store. -/
def check_height_to_key_diff [DecidableEq K] (s : Organizer K M) : List K :=
  ((s.nodes_by_height.map Prod.snd).flatten.dedup).filter
    (fun k => ¬ containsA s.nodes_by_key k)

/-! ## Concrete states used by counterexamples and witnesses -/

/-- A record with no children, as built by `ReorgNode::new`. -/
def exN (k h v p : Nat) : ReorgNode Nat Unit :=
  { key := k, height := h, value := v, parent := p, children := [], custom_meta := () }

/-- A record with an explicit children list. -/
def exNc (k h v p : Nat) (ch : List Nat) : ReorgNode Nat Unit :=
  { key := k, height := h, value := v, parent := p, children := ch, custom_meta := () }

/-- C1 scenario: depth 255, root `0` at height 0; a chain `1,2,3` at heights
`1,2,3`, then a fork record `4` at height 2 whose parent is `2`. -/
def exC1 : Option (Organizer Nat Unit) :=
  (insert (new_with (exN 0 0 0 999) 255 false) (exN 1 1 0 0) none).bind fun s =>
  (insert s (exN 2 2 0 1) none).bind fun s =>
  (insert s (exN 3 3 0 2) none).bind fun s =>
  insert s (exN 4 2 0 2) none

/-- C2 scenario, first step: depth 2, root `0` at height 0, record `1` at
height 5 parented to the root (the frontier jumps from 0 to 5). -/
def exC2s1 : Option (Organizer Nat Unit) :=
  insert (new_with (exN 0 0 0 999) 2 false) (exN 1 5 0 0) none

/-- C2 scenario, second step: record `2` at height 6 parented to `1`. -/
def exC2s2 : Option (Organizer Nat Unit) :=
  exC2s1.bind fun s => insert s (exN 2 6 0 1) none

/-- C7 scenario: depth 1; root `0` at height 0; an orphan `50` at height 3
with unknown parent `77` is buffered, then the chain grows until
`allowed_oldest` equals exactly 3. -/
def exC7 : Option (Organizer Nat Unit) :=
  (insert (new_with (exN 0 0 0 999) 1 false) (exN 1 1 0 0) none).bind fun s =>
  (insert s (exN 50 3 0 77) none).bind fun s =>
  (insert s (exN 2 2 0 1) none).bind fun s =>
  (insert s (exN 3 3 0 2) none).bind fun s =>
  insert s (exN 4 4 0 3) none

/-- C9 scenario: a fresh engine whose root has key 100, then a record whose
key is also 100, parented to the root. -/
def exC9 : Option (Organizer Nat Unit) :=
  insert (new_with (exN 100 10 0 999) 255 false) (exN 100 11 0 100) none

/-- C3 scenario: root `100` with children `1` (a straight chain `1..5` of
length 5, unit height steps) and `11` (a chain `11,12,13` of length 3 whose
tip also sits at the frontier height 5). -/
def exC3len : Organizer Nat Unit :=
  { root := exNc 100 0 0 999 [1, 11]
    nodes_by_key := [(1, exNc 1 1 0 100 [2]), (2, exNc 2 2 0 1 [3]),
      (3, exNc 3 3 0 2 [4]), (4, exNc 4 4 0 3 [5]), (5, exNc 5 5 0 4 []),
      (11, exNc 11 1 0 100 [12]), (12, exNc 12 3 0 11 [13]),
      (13, exNc 13 5 0 12 [])]
    nodes_by_height := [(0, [100]), (1, [1, 11]), (2, [2]), (3, [3, 12]),
      (4, [4]), (5, [5, 13])]
    buffer := []
    height := 5
    allowed_depth := 255
    value_based := false }

/-- C3 scenario in value mode: branch `1..5` carries value 1 per record,
branch `11,12,13` carries value 10 per record, so the short branch sums
greater value. -/
def exC3val : Organizer Nat Unit :=
  { exC3len with
    nodes_by_key := [(1, exNc 1 1 1 100 [2]), (2, exNc 2 2 1 1 [3]),
      (3, exNc 3 3 1 2 [4]), (4, exNc 4 4 1 3 [5]), (5, exNc 5 5 1 4 []),
      (11, exNc 11 1 10 100 [12]), (12, exNc 12 3 10 11 [13]),
      (13, exNc 13 5 10 12 [])] }

/-- C6 scenario: a fresh engine; its frontier bucket holds only the root's
key, which is (by design) absent from the node store, so the branch walk
immediately hits a missing record. -/
def exC6 : Organizer Nat Unit := new_with (exN 5 0 0 999) 255 false

/-- C6 scenario with a present-but-empty frontier bucket. -/
def exC6empty : Organizer Nat Unit := { exC6 with nodes_by_height := [(0, [])] }

/-- C4/C5 scenario: root `0` with the chain `1 → 2 → 3` retained. -/
def exC4 : Organizer Nat Unit :=
  { root := exNc 0 0 0 999 [1]
    nodes_by_key := [(1, exNc 1 1 0 0 [2]), (2, exNc 2 2 0 1 [3]),
      (3, exNc 3 3 0 2 [])]
    nodes_by_height := [(0, [0]), (1, [1]), (2, [2]), (3, [3])]
    buffer := []
    height := 3
    allowed_depth := 255
    value_based := false }

/-! ## C1: frontier height vs maximum accepted height -/

/-- C1: the code violates the claim.  After accepting the fork record `4`
(height 2, parented to the retained record `2`), the frontier `height` field
is 2, yet record `3` of height 3 is still retained in the node store: the
frontier no longer equals the maximum height ever accepted.  (`insert`
unconditionally assigns `self.height = node.height` on commit.) -/
theorem C1_frontier_drops_below_max_accepted :
    (exC1.map fun s => s.height) = some 2 ∧
    (exC1.bind fun s => findA s.nodes_by_key 3) = some (exN 3 3 0 2) ∧
    (exC1.map fun s => decide (s.height < 3)) = some true := by
  decide

/-! ## C2: root advancement trigger -/

/-- C2 counterexample: after the frontier jumps from 0 to 5 (depth 2), the
root at height 0 satisfies the claim's eligibility condition
`root.height ≤ allowed_oldest()` (0 ≤ 3) and has exactly one child, and the
next insert passes both reject guards — yet no promotion happens, because
the code only advances on exact equality `root.height == allowed_oldest()`. -/
theorem C2_counterexample_no_advancement_on_ge :
    (exC2s1.map fun s => decide (s.root.height ≤ allowed_oldest s)) = some true ∧
    (exC2s1.map fun s => s.root.children) = some [1] ∧
    (exC2s1.map fun s => decide ((6 : Nat) ≤ allowed_oldest s)) = some false ∧
    (exC2s1.map fun s => containsA s.nodes_by_key 1) = some true ∧
    (exC2s2.map fun s => (s.root.key, containsA s.nodes_by_key 1)) =
      some (0, true) := by
  decide

/-! ## C4: traversal stop semantics -/

/-- C4 counterexample: walking from head `3` with `stop_at = 1` visits the
records with keys 3 and 2 only — the stop record (key 1) is NOT visited,
because the loop breaks before invoking the callback on it. -/
theorem C4_counterexample_stop_record_not_visited :
    ((apply_callback_visits exC4 (some 3) (some 1) 10).map fun l =>
      l.map ReorgNode.key) = some [3, 2] ∧
    ((apply_callback_visits exC4 (some 3) (some 1) 10).map fun l =>
      decide (1 ∈ l.map ReorgNode.key)) = some false := by
  decide

/-! ## C5: subtree deletion -/

/-- C5 counterexample: deleting the subtree rooted at key 2 removes records
2 and 3 and returns them, but the retained record 1 still lists the removed
key 2 among its children — a dangling reference remains. -/
theorem C5_counterexample_dangling_child_reference :
    keysOf (delete_children exC4 2).1.nodes_by_key = [1] ∧
    ((findA (delete_children exC4 2).1.nodes_by_key 1).map ReorgNode.children) =
      some [2] ∧
    containsA (delete_children exC4 2).1.nodes_by_key 2 = false ∧
    ((delete_children exC4 2).2.map ReorgNode.key) = [2, 3] := by
  decide

/-! ## C6: branch-selection failure conditions -/

/-- C6 counterexample: `find_longest_branch` does not panic when a record on
the walk is missing from the node store (here the lone head `5` itself is
missing: it is the root's key, stored by height only), nor when the frontier
bucket is present but empty; in both situations it returns the default key
without failing. -/
theorem C6_counterexample_no_panic_on_missing_walk_record :
    find_longest_branch exC6 none = some 0 ∧
    findA exC6.nodes_by_height exC6.height = some [5] ∧
    findA exC6.nodes_by_key 5 = none ∧
    find_longest_branch exC6empty none = some 0 ∧
    findA exC6empty.nodes_by_height exC6empty.height = some [] := by
  decide

/-! ## C7: orphan-buffer expiry threshold -/

/-- C7 counterexample: after the fifth accepted insertion the allowed-oldest
threshold is 3 and the buffered orphan `50` has height exactly 3, yet it is
still in the buffer: the drain only discards buffered records whose height
is strictly below the threshold. -/
theorem C7_counterexample_threshold_record_kept :
    (exC7.map fun s => allowed_oldest s) = some 3 ∧
    (exC7.bind fun s => findA s.buffer 50) = some (exN 50 3 0 77) := by
  decide

/-! ## C8: reject-too-old guard -/

/-- C8: a record whose height is at or below `allowed_oldest()` is discarded
silently: `insert` returns without error and the state is entirely
unchanged. -/
theorem C8_too_old_discarded_silently [DecidableEq K] [Inhabited K]
    (s : Organizer K M) (node : ReorgNode K M) (mv : Option Bool)
    (h : node.height ≤ allowed_oldest s) :
    insert s node mv = some s := by
  simp [insert, h]

/-- Witness for C8 at a concrete input. -/
theorem C8_too_old_discarded_silently_witness :
    (exN 7 0 0 0).height ≤ allowed_oldest (new_with (exN 0 0 0 999) 255 false) ∧
    insert (new_with (exN 0 0 0 999) 255 false) (exN 7 0 0 0) none =
      some (new_with (exN 0 0 0 999) 255 false) :=
  ⟨by decide, C8_too_old_discarded_silently _ _ _ (by decide)⟩

/-! ## C9: root exclusivity (counterexample part) -/

/-- C9 counterexample: inserting a record whose key equals the current
root's key makes `root.key` a key of the node store, so root exclusivity
does not hold after arbitrary insert sequences. -/
theorem C9_counterexample_duplicate_key_breaks_exclusivity :
    (exC9.map fun s => containsA s.nodes_by_key s.root.key) = some true := by
  decide

/-! ## C10: implicit rejection of root-parented stale records -/

/-- C10: because the root's key is absent from the node store, the
dangling-and-stale guard silently discards any record parented to the root
whose height is at or below the frontier: the state is returned unchanged
and nothing is attached. -/
theorem C10_root_parented_stale_discarded [DecidableEq K] [Inhabited K]
    (s : Organizer K M) (node : ReorgNode K M) (mv : Option Bool)
    (hroot : containsA s.nodes_by_key s.root.key = false)
    (hpar : node.parent = s.root.key) (hh : node.height ≤ s.height) :
    insert s node mv = some s := by
  by_cases h1 : node.height ≤ allowed_oldest s
  · simp [insert, h1]
  · simp [insert, h1, hpar, hroot, hh]

/-- Witness for C10 at a concrete input: a record at the frontier height
parented to the root is silently dropped. -/
theorem C10_root_parented_stale_discarded_witness :
    containsA exC3len.nodes_by_key exC3len.root.key = false ∧
    (exN 77 5 0 100).parent = exC3len.root.key ∧
    (exN 77 5 0 100).height ≤ exC3len.height ∧
    insert exC3len (exN 77 5 0 100) none = some exC3len :=
  ⟨by decide, by decide, by decide,
    C10_root_parented_stale_discarded _ _ _ (by decide) (by decide) (by decide)⟩

/-! ## C3: branch selection -/

theorem pickFold_acc_le {K : Type} (l : List (K × Nat)) :
    ∀ a : K × Nat, a.2 ≤ (l.foldl (fun acc p => if acc.2 < p.2 then p else acc) a).2 := by
  induction l with
  | nil => intro a; simp
  | cons p l ih =>
    intro a
    simp only [List.foldl_cons]
    by_cases h : a.2 < p.2
    · simp only [if_pos h]
      exact le_trans (le_of_lt h) (ih p)
    · simp only [if_neg h]
      exact ih a

theorem pickFold_mem_le {K : Type} (l : List (K × Nat)) :
    ∀ (a q : K × Nat), q ∈ l →
      q.2 ≤ (l.foldl (fun acc p => if acc.2 < p.2 then p else acc) a).2 := by
  induction l with
  | nil => intro a q hq; simp at hq
  | cons p l ih =>
    intro a q hq
    simp only [List.foldl_cons]
    rcases List.mem_cons.mp hq with h | h
    · subst h
      by_cases hlt : a.2 < q.2
      · simp only [if_pos hlt]; exact pickFold_acc_le l q
      · simp only [if_neg hlt]
        exact le_trans (le_of_not_lt hlt) (pickFold_acc_le l a)
    · by_cases hlt : a.2 < p.2 <;> simp only [if_pos, if_neg, hlt] <;> exact ih _ q h

theorem pickFold_position {K : Type} (l : List (K × Nat)) :
    ∀ a : K × Nat,
      l.foldl (fun acc p => if acc.2 < p.2 then p else acc) a = a ∨
      ∃ pre post,
        l = pre ++ (l.foldl (fun acc p => if acc.2 < p.2 then p else acc) a) :: post ∧
        a.2 < (l.foldl (fun acc p => if acc.2 < p.2 then p else acc) a).2 ∧
        ∀ q ∈ pre, q.2 < (l.foldl (fun acc p => if acc.2 < p.2 then p else acc) a).2 := by
  induction l with
  | nil => intro a; left; rfl
  | cons p l ih =>
    intro a
    simp only [List.foldl_cons]
    by_cases h : a.2 < p.2
    · simp only [if_pos h]
      rcases ih p with heq | ⟨pre, post, hsplit, hlt, hpre⟩
      · right
        refine ⟨[], l, ?_, ?_, ?_⟩
        · rw [heq]; rfl
        · rw [heq]; exact h
        · intro q hq; simp at hq
      · right
        refine ⟨p :: pre, post, ?_, ?_, ?_⟩
        · rw [List.cons_append, ← hsplit]
        · exact lt_trans h hlt
        · intro q hq
          rcases List.mem_cons.mp hq with rfl | hq
          · exact hlt
          · exact hpre q hq
    · simp only [if_neg h]
      rcases ih a with heq | ⟨pre, post, hsplit, hlt, hpre⟩
      · left; exact heq
      · right
        refine ⟨p :: pre, post, ?_, ?_, ?_⟩
        · rw [List.cons_append, ← hsplit]
        · exact hlt
        · intro q hq
          rcases List.mem_cons.mp hq with rfl | hq
          · exact lt_of_le_of_lt (le_of_not_lt h) hlt
          · exact hpre q hq

/-- C3: branch selection.  On the concrete two-branch scenario the
length-mode selector returns the long branch's root child `1` and the
value-mode selector returns the heavier short branch's root child `11`;
in general the selection loop returns an entry of maximal accumulated
worth and, when that worth is positive, the first-seen entry attaining it
(ties keep the earlier branch). -/
theorem C3_branch_selection :
    find_longest_branch exC3len (some false) = some 1 ∧
    find_longest_branch exC3val (some true) = some 11 ∧
    (∀ (K : Type) [Inhabited K] (l : List (K × Nat)) (q : K × Nat), q ∈ l →
      q.2 ≤ (pickGreatest l).2) ∧
    (∀ (K : Type) [Inhabited K] (l : List (K × Nat)), 0 < (pickGreatest l).2 →
      ∃ pre post, l = pre ++ pickGreatest l :: post ∧
        ∀ q ∈ pre, q.2 < (pickGreatest l).2) := by
  refine ⟨by decide, by decide, ?_, ?_⟩
  · intro K _ l q hq
    exact pickFold_mem_le l _ q hq
  · intro K _ l hpos
    rcases pickFold_position l (default, 0) with heq | ⟨pre, post, hsplit, _, hpre⟩
    · rw [pickGreatest] at hpos
      rw [heq] at hpos
      simp at hpos
    · exact ⟨pre, post, hsplit, hpre⟩

/-- Witness for C3's general selection clauses at a concrete input. -/
theorem C3_branch_selection_witness :
    ((1, 4) : Nat × Nat) ∈ ([(1, 4), (11, 2)] : List (Nat × Nat)) ∧
    (4 : Nat) ≤ (pickGreatest [((1 : Nat), 4), (11, 2)]).2 ∧
    0 < (pickGreatest [((1 : Nat), 4), (11, 2)]).2 ∧
    ∃ pre post, ([((1 : Nat), 4), (11, 2)] : List (Nat × Nat)) =
        pre ++ pickGreatest [((1 : Nat), 4), (11, 2)] :: post ∧
      ∀ q ∈ pre, q.2 < (pickGreatest [((1 : Nat), 4), (11, 2)]).2 :=
  ⟨by decide, C3_branch_selection.2.2.1 Nat [(1, 4), (11, 2)] (1, 4) (by decide),
    by decide, C3_branch_selection.2.2.2 Nat [(1, 4), (11, 2)] (by decide)⟩

/-! ## C5: subtree deletion — association-list lemmas and reachability -/

theorem findA_eraseA {K V : Type} [DecidableEq K] (m : List (K × V)) (k x : K) :
    findA (eraseA m k) x = if x = k then none else findA m x := by
  induction m with
  | nil => simp [eraseA, findA]
  | cons p m ih =>
    by_cases hp : p.1 = k
    · rw [eraseA, if_pos hp, ih]
      by_cases hx : x = k
      · simp [hx]
      · have hpx : ¬ p.1 = x := fun hc => hx (hc ▸ hp)
        simp [findA, hx, hpx]
    · rw [eraseA, if_neg hp]
      by_cases hpx : p.1 = x
      · have hxk : ¬ x = k := fun hc => hp (hpx.trans hc)
        simp [findA, hpx, hxk]
      · simp [findA, hpx, ih]

theorem eraseA_sublist {K V : Type} [DecidableEq K] (m : List (K × V)) (k : K) :
    (eraseA m k).Sublist m := by
  induction m with
  | nil => simp [eraseA]
  | cons p m ih =>
    by_cases hp : p.1 = k
    · rw [eraseA, if_pos hp]
      exact ih.cons p
    · rw [eraseA, if_neg hp]
      exact ih.cons₂ p

theorem length_eraseA_le {K V : Type} [DecidableEq K] (m : List (K × V)) (k : K) :
    (eraseA m k).length ≤ m.length :=
  (eraseA_sublist m k).length_le

theorem length_eraseA_lt {K V : Type} [DecidableEq K] (m : List (K × V)) (k : K)
    (h : (findA m k).isSome = true) : (eraseA m k).length < m.length := by
  induction m with
  | nil => simp [findA] at h
  | cons p m ih =>
    by_cases hp : p.1 = k
    · rw [eraseA, if_pos hp]
      exact Nat.lt_succ_of_le (length_eraseA_le m k)
    · rw [findA, if_neg hp] at h
      rw [eraseA, if_neg hp, List.length_cons, List.length_cons]
      exact Nat.succ_lt_succ (ih h)

theorem mem_of_findA {K V : Type} [DecidableEq K] {m : List (K × V)} {k : K}
    {v : V} (h : findA m k = some v) : (k, v) ∈ m := by
  induction m with
  | nil => simp [findA] at h
  | cons p m ih =>
    by_cases hp : p.1 = k
    · rw [findA, if_pos hp] at h
      obtain rfl : p.2 = v := Option.some.inj h
      rw [← hp]
      exact List.mem_cons_self p m
    · rw [findA, if_neg hp] at h
      exact List.mem_cons_of_mem p (ih h)

/-- Reachability through `children` links: the set of keys the breadth-first
deletion of `delete_children` chases from a designated branch root.  A step
is only possible through a key that has an entry in the store. -/
inductive Reach {K M : Type} [DecidableEq K] (m : List (K × ReorgNode K M)) (root : K) :
    K → Prop
  | refl : Reach m root root
  | step {y x : K} {n : ReorgNode K M} :
      Reach m root y → findA m y = some n → x ∈ n.children → Reach m root x

theorem reach_of_findA_none {K M : Type} [DecidableEq K]
    {m : List (K × ReorgNode K M)} {f x : K} (h : findA m f = none)
    (hr : Reach m f x) : x = f := by
  induction hr with
  | refl => rfl
  | step hy hfind hc ih =>
    rw [ih] at hfind
    rw [h] at hfind
    simp at hfind

theorem foldStep_find {K M : Type} [DecidableEq K] (F : List K) :
    ∀ (m : List (K × ReorgNode K M)) (n0 : List K) (r0 : List (ReorgNode K M))
      (x : K),
      findA (F.foldl deleteStep (m, n0, r0)).1 x =
        if x ∈ F then none else findA m x := by
  induction F with
  | nil => intro m n0 r0 x; simp
  | cons f F ih =>
    intro m n0 r0 x
    simp only [List.foldl_cons]
    cases hf : findA m f with
    | some r =>
      rw [show deleteStep (m, n0, r0) f = (eraseA m f, n0 ++ r.children, r0 ++ [r])
        from by simp [deleteStep, hf]]
      rw [ih, findA_eraseA]
      by_cases hxF : x ∈ F
      · simp [hxF]
      · by_cases hxf : x = f
        · simp [hxf, hxF]
        · simp [hxf, hxF]
    | none =>
      rw [show deleteStep (m, n0, r0) f = (m, n0, r0) from by simp [deleteStep, hf]]
      rw [ih]
      by_cases hxF : x ∈ F
      · simp [hxF]
      · by_cases hxf : x = f
        · simp [hxf, hxF, hf]
        · simp [hxf, hxF]

theorem foldStep_next_mem {K M : Type} [DecidableEq K] (F : List K) :
    ∀ (m : List (K × ReorgNode K M)) (n0 : List K) (r0 : List (ReorgNode K M))
      (y : K),
      y ∈ (F.foldl deleteStep (m, n0, r0)).2.1 ↔
        y ∈ n0 ∨ ∃ f ∈ F, ∃ n : ReorgNode K M,
          findA m f = some n ∧ y ∈ n.children := by
  induction F with
  | nil => intro m n0 r0 y; simp
  | cons f F ih =>
    intro m n0 r0 y
    simp only [List.foldl_cons]
    cases hf : findA m f with
    | some r =>
      rw [show deleteStep (m, n0, r0) f = (eraseA m f, n0 ++ r.children, r0 ++ [r])
        from by simp [deleteStep, hf]]
      rw [ih]
      constructor
      · rintro (hmem | ⟨g, hg, n, hfind, hy⟩)
        · rcases List.mem_append.mp hmem with h0 | hr
          · exact Or.inl h0
          · exact Or.inr ⟨f, List.mem_cons_self f F, r, hf, hr⟩
        · rw [findA_eraseA] at hfind
          by_cases hgf : g = f
          · rw [if_pos hgf] at hfind; simp at hfind
          · rw [if_neg hgf] at hfind
            exact Or.inr ⟨g, List.mem_cons_of_mem f hg, n, hfind, hy⟩
      · rintro (h0 | ⟨g, hg, n, hfind, hy⟩)
        · exact Or.inl (List.mem_append.mpr (Or.inl h0))
        · by_cases hgf : g = f
          · subst hgf
            rw [hf] at hfind
            obtain rfl : r = n := Option.some.inj hfind
            exact Or.inl (List.mem_append.mpr (Or.inr hy))
          · rcases List.mem_cons.mp hg with h | h
            · exact absurd h hgf
            · refine Or.inr ⟨g, h, n, ?_, hy⟩
              rw [findA_eraseA, if_neg hgf]
              exact hfind
    | none =>
      rw [show deleteStep (m, n0, r0) f = (m, n0, r0) from by simp [deleteStep, hf]]
      rw [ih]
      constructor
      · rintro (h0 | ⟨g, hg, n, hfind, hy⟩)
        · exact Or.inl h0
        · exact Or.inr ⟨g, List.mem_cons_of_mem f hg, n, hfind, hy⟩
      · rintro (h0 | ⟨g, hg, n, hfind, hy⟩)
        · exact Or.inl h0
        · rcases List.mem_cons.mp hg with h | h
          · subst h
            rw [hf] at hfind
            simp at hfind
          · exact Or.inr ⟨g, h, n, hfind, hy⟩

theorem foldStep_ret_mem {K M : Type} [DecidableEq K] (F : List K) :
    ∀ (m : List (K × ReorgNode K M)) (n0 : List K) (r0 : List (ReorgNode K M))
      (v : ReorgNode K M),
      v ∈ (F.foldl deleteStep (m, n0, r0)).2.2 ↔
        v ∈ r0 ∨ ∃ f ∈ F, findA m f = some v := by
  induction F with
  | nil => intro m n0 r0 v; simp
  | cons f F ih =>
    intro m n0 r0 v
    simp only [List.foldl_cons]
    cases hf : findA m f with
    | some r =>
      rw [show deleteStep (m, n0, r0) f = (eraseA m f, n0 ++ r.children, r0 ++ [r])
        from by simp [deleteStep, hf]]
      rw [ih]
      constructor
      · rintro (hmem | ⟨g, hg, hfind⟩)
        · rcases List.mem_append.mp hmem with h0 | hr
          · exact Or.inl h0
          · rw [List.mem_singleton] at hr
            exact Or.inr ⟨f, List.mem_cons_self f F, hr ▸ hf⟩
        · rw [findA_eraseA] at hfind
          by_cases hgf : g = f
          · rw [if_pos hgf] at hfind; simp at hfind
          · rw [if_neg hgf] at hfind
            exact Or.inr ⟨g, List.mem_cons_of_mem f hg, hfind⟩
      · rintro (h0 | ⟨g, hg, hfind⟩)
        · exact Or.inl (List.mem_append.mpr (Or.inl h0))
        · by_cases hgf : g = f
          · subst hgf
            rw [hf] at hfind
            obtain rfl : r = v := Option.some.inj hfind
            exact Or.inl (List.mem_append.mpr (Or.inr (List.mem_singleton.mpr rfl)))
          · rcases List.mem_cons.mp hg with h | h
            · exact absurd h hgf
            · refine Or.inr ⟨g, h, ?_⟩
              rw [findA_eraseA, if_neg hgf]
              exact hfind
    | none =>
      rw [show deleteStep (m, n0, r0) f = (m, n0, r0) from by simp [deleteStep, hf]]
      rw [ih]
      constructor
      · rintro (h0 | ⟨g, hg, hfind⟩)
        · exact Or.inl h0
        · exact Or.inr ⟨g, List.mem_cons_of_mem f hg, hfind⟩
      · rintro (h0 | ⟨g, hg, hfind⟩)
        · exact Or.inl h0
        · rcases List.mem_cons.mp hg with h | h
          · subst h
            rw [hf] at hfind
            simp at hfind
          · exact Or.inr ⟨g, h, hfind⟩

theorem foldStep_length_le {K M : Type} [DecidableEq K] (F : List K) :
    ∀ (m : List (K × ReorgNode K M)) (n0 : List K) (r0 : List (ReorgNode K M)),
      (F.foldl deleteStep (m, n0, r0)).1.length ≤ m.length := by
  induction F with
  | nil => intro m n0 r0; simp
  | cons f F ih =>
    intro m n0 r0
    simp only [List.foldl_cons]
    cases hf : findA m f with
    | some r =>
      rw [show deleteStep (m, n0, r0) f = (eraseA m f, n0 ++ r.children, r0 ++ [r])
        from by simp [deleteStep, hf]]
      exact le_trans (ih _ _ _) (length_eraseA_le m f)
    | none =>
      rw [show deleteStep (m, n0, r0) f = (m, n0, r0) from by simp [deleteStep, hf]]
      exact ih _ _ _

theorem foldStep_length_lt {K M : Type} [DecidableEq K] (F : List K) :
    ∀ (m : List (K × ReorgNode K M)) (n0 : List K) (r0 : List (ReorgNode K M))
      (f : K), f ∈ F → (findA m f).isSome = true →
      (F.foldl deleteStep (m, n0, r0)).1.length < m.length := by
  induction F with
  | nil => intro m n0 r0 f hf; simp at hf
  | cons g F ih =>
    intro m n0 r0 f hf hsome
    simp only [List.foldl_cons]
    cases hg : findA m g with
    | some r =>
      rw [show deleteStep (m, n0, r0) g = (eraseA m g, n0 ++ r.children, r0 ++ [r])
        from by simp [deleteStep, hg]]
      exact lt_of_le_of_lt (foldStep_length_le F _ _ _)
        (length_eraseA_lt m g (by rw [hg]; rfl))
    | none =>
      rw [show deleteStep (m, n0, r0) g = (m, n0, r0) from by simp [deleteStep, hg]]
      rcases List.mem_cons.mp hf with h | h
      · rw [h, hg] at hsome; simp at hsome
      · exact ih _ _ _ f h hsome

theorem foldStep_all_none {K M : Type} [DecidableEq K] (F : List K) :
    ∀ (m : List (K × ReorgNode K M)) (n0 : List K) (r0 : List (ReorgNode K M)),
      (∀ f ∈ F, findA m f = none) → F.foldl deleteStep (m, n0, r0) = (m, n0, r0) := by
  induction F with
  | nil => intro m n0 r0 _; rfl
  | cons f F ih =>
    intro m n0 r0 hall
    simp only [List.foldl_cons]
    rw [show deleteStep (m, n0, r0) f = (m, n0, r0)
      from by simp [deleteStep, hall f (List.mem_cons_self f F)]]
    exact ih m n0 r0 (fun g hg => hall g (List.mem_cons_of_mem f hg))

theorem deleteLoop_nil {K M : Type} [DecidableEq K] (fuel : Nat)
    (m : List (K × ReorgNode K M)) (ret : List (ReorgNode K M)) :
    deleteLoop fuel m [] ret = (m, ret) := by
  cases fuel with
  | zero => rfl
  | succ fuel => simp [deleteLoop]

/-- Conclusions of the deletion loop at a terminal state: the store is the
original minus the reachable keys and the returned records are exactly the
reachable entries. -/
theorem deleteLoop_terminal {K M : Type} [DecidableEq K]
    (mOrig : List (K × ReorgNode K M)) (k : K)
    (m : List (K × ReorgNode K M)) (D : List K) (ret : List (ReorgNode K M))
    (H1 : ∀ x, findA m x = if x ∈ D then none else findA mOrig x)
    (H3 : ∀ d ∈ D, Reach mOrig k d)
    (H4t : ∀ x, Reach mOrig k x → (findA mOrig x).isSome = true → x ∈ D)
    (H5 : ∀ v, v ∈ ret ↔ ∃ x ∈ D, findA mOrig x = some v) :
    (∀ x, Reach mOrig k x → findA m x = none) ∧
    (∀ x, ¬ Reach mOrig k x → findA m x = findA mOrig x) ∧
    (∀ v, v ∈ ret ↔ ∃ x, Reach mOrig k x ∧ findA mOrig x = some v) := by
  refine ⟨?_, ?_, ?_⟩
  · intro x hr
    by_cases hs : (findA mOrig x).isSome = true
    · rw [H1, if_pos (H4t x hr hs)]
    · rw [H1]
      split
      · rfl
      · exact Option.not_isSome_iff_eq_none.mp hs
  · intro x hr
    have hxD : x ∉ D := fun hxD => hr (H3 x hxD)
    rw [H1, if_neg hxD]
  · intro v
    rw [H5]
    constructor
    · rintro ⟨x, hxD, hfind⟩
      exact ⟨x, H3 x hxD, hfind⟩
    · rintro ⟨x, hr, hfind⟩
      exact ⟨x, H4t x hr (by rw [hfind]; rfl), hfind⟩

/-- Full characterization of the breadth-first deletion loop, by induction
on the fuel: given the loop invariants relating the current store, frontier
and accumulator to the original store, the loop empties exactly the
reachable part of the store and returns exactly the reachable entries. -/
theorem deleteLoop_spec {K M : Type} [DecidableEq K]
    (mOrig : List (K × ReorgNode K M)) (k : K) :
    ∀ (fuel : Nat) (m : List (K × ReorgNode K M)) (F D : List K)
      (ret : List (ReorgNode K M)),
      m.length < fuel →
      (∀ x, findA m x = if x ∈ D then none else findA mOrig x) →
      (∀ f ∈ F, Reach mOrig k f) →
      (∀ d ∈ D, Reach mOrig k d) →
      (∀ x, Reach mOrig k x → (findA mOrig x).isSome = true →
        x ∈ D ∨ ∃ f ∈ F, Reach m f x) →
      (∀ v, v ∈ ret ↔ ∃ x ∈ D, findA mOrig x = some v) →
      (∀ x, Reach mOrig k x → findA (deleteLoop fuel m F ret).1 x = none) ∧
      (∀ x, ¬ Reach mOrig k x →
        findA (deleteLoop fuel m F ret).1 x = findA mOrig x) ∧
      (∀ v, v ∈ (deleteLoop fuel m F ret).2 ↔
        ∃ x, Reach mOrig k x ∧ findA mOrig x = some v) := by
  intro fuel
  induction fuel with
  | zero => intro m F D ret hfuel; omega
  | succ fuel ih =>
    intro m F D ret hfuel H1 H2 H3 H4 H5
    cases F with
    | nil =>
      rw [deleteLoop_nil]
      refine deleteLoop_terminal mOrig k m D ret H1 H3 ?_ H5
      intro x hr hs
      rcases H4 x hr hs with h | ⟨f, hf, _⟩
      · exact h
      · simp at hf
    | cons f0 F0 =>
      by_cases hall : ∀ f ∈ f0 :: F0, findA m f = none
      · have hfold := foldStep_all_none (f0 :: F0) m [] ret hall
        have hloop : deleteLoop (fuel + 1) m (f0 :: F0) ret = (m, ret) := by
          rw [deleteLoop, if_neg (by simp), hfold, deleteLoop_nil]
        rw [hloop]
        refine deleteLoop_terminal mOrig k m D ret H1 H3 ?_ H5
        intro x hr hs
        rcases H4 x hr hs with h | ⟨f, hf, hrm⟩
        · exact h
        · by_cases hxD : x ∈ D
          · exact hxD
          · exfalso
            have hx : x = f := reach_of_findA_none (hall f hf) hrm
            have h1 := H1 x
            rw [if_neg hxD, hx, hall f hf] at h1
            rw [hx, ← h1] at hs
            simp at hs
      · push_neg at hall
        obtain ⟨fw, hfw, hfwne⟩ := hall
        have hfwsome : (findA m fw).isSome = true :=
          Option.ne_none_iff_isSome.mp hfwne
        have hloop : deleteLoop (fuel + 1) m (f0 :: F0) ret =
            deleteLoop fuel ((f0 :: F0).foldl deleteStep (m, [], ret)).1
              ((f0 :: F0).foldl deleteStep (m, [], ret)).2.1
              ((f0 :: F0).foldl deleteStep (m, [], ret)).2.2 := by
          rw [deleteLoop, if_neg (by simp)]
        rw [hloop]
        have aux : ∀ f x, f ∈ f0 :: F0 → Reach m f x →
            x ∈ f0 :: F0 ∨
            ∃ g ∈ ((f0 :: F0).foldl deleteStep (m, [], ret)).2.1,
              Reach ((f0 :: F0).foldl deleteStep (m, [], ret)).1 g x := by
          intro f x hf hr
          induction hr with
          | refl => exact Or.inl hf
          | step hy hfind hc ihy =>
            rename_i y z n
            rcases ihy with hyF | ⟨g, hg, hr1⟩
            · right
              refine ⟨_, ?_, Reach.refl⟩
              rw [foldStep_next_mem]
              exact Or.inr ⟨_, hyF, _, hfind, hc⟩
            · by_cases hyF : y ∈ f0 :: F0
              · right
                refine ⟨_, ?_, Reach.refl⟩
                rw [foldStep_next_mem]
                exact Or.inr ⟨_, hyF, _, hfind, hc⟩
              · right
                refine ⟨g, hg, Reach.step hr1 ?_ hc⟩
                rw [foldStep_find, if_neg hyF]
                exact hfind
        refine ih _ _ (D ++ f0 :: F0) _ ?_ ?_ ?_ ?_ ?_ ?_
        · exact lt_of_lt_of_le
            (foldStep_length_lt (f0 :: F0) m [] ret fw hfw hfwsome)
            (Nat.lt_succ_iff.mp hfuel)
        · intro x
          rw [foldStep_find]
          by_cases hF : x ∈ f0 :: F0
          · simp [hF, List.mem_append]
          · by_cases hD : x ∈ D <;>
              simp [hF, hD, List.mem_append, H1 x]
        · intro g hg
          rw [foldStep_next_mem] at hg
          rcases hg with h0 | ⟨f, hf, n, hfind, hc⟩
          · simp at h0
          · by_cases hfD : f ∈ D
            · rw [H1 f, if_pos hfD] at hfind
              simp at hfind
            · rw [H1 f, if_neg hfD] at hfind
              exact Reach.step (H2 f hf) hfind hc
        · intro d hd
          rcases List.mem_append.mp hd with h | h
          · exact H3 d h
          · exact H2 d h
        · intro x hr hs
          rcases H4 x hr hs with hD | ⟨f, hf, hrm⟩
          · exact Or.inl (List.mem_append.mpr (Or.inl hD))
          · rcases aux f x hf hrm with hF | hnext
            · exact Or.inl (List.mem_append.mpr (Or.inr hF))
            · exact Or.inr hnext
        · intro v
          rw [foldStep_ret_mem]
          constructor
          · rintro (hv | ⟨f, hf, hfind⟩)
            · obtain ⟨x, hxD, hx⟩ := (H5 v).mp hv
              exact ⟨x, List.mem_append.mpr (Or.inl hxD), hx⟩
            · by_cases hfD : f ∈ D
              · rw [H1 f, if_pos hfD] at hfind
                simp at hfind
              · rw [H1 f, if_neg hfD] at hfind
                exact ⟨f, List.mem_append.mpr (Or.inr hf), hfind⟩
          · rintro ⟨x, hxDF, hfind⟩
            rcases List.mem_append.mp hxDF with hxD | hxF
            · exact Or.inl ((H5 v).mpr ⟨x, hxD, hfind⟩)
            · by_cases hxD : x ∈ D
              · exact Or.inl ((H5 v).mpr ⟨x, hxD, hfind⟩)
              · refine Or.inr ⟨x, hxF, ?_⟩
                rw [H1 x, if_neg hxD]
                exact hfind

/-- Store-level characterization of `delete_children`: it removes exactly
the keys transitively reachable from the branch root through `children`
links, leaving every other entry untouched, and returns exactly the removed
records. -/
theorem deleteFromStore_spec {K M : Type} [DecidableEq K]
    (m : List (K × ReorgNode K M)) (k : K) :
    (∀ x, Reach m k x → findA (deleteFromStore m k).1 x = none) ∧
    (∀ x, ¬ Reach m k x → findA (deleteFromStore m k).1 x = findA m x) ∧
    (∀ v, v ∈ (deleteFromStore m k).2 ↔
      ∃ x, Reach m k x ∧ findA m x = some v) := by
  cases hk : findA m k with
  | none =>
    have hd : deleteFromStore m k = (m, []) := by
      rw [deleteFromStore, hk]
    refine ⟨?_, ?_, ?_⟩
    · intro x hr
      rw [hd, reach_of_findA_none hk hr]
      exact hk
    · intro x _
      rw [hd]
    · intro v
      rw [hd]
      constructor
      · intro hv; simp at hv
      · rintro ⟨x, hr, hfind⟩
        rw [reach_of_findA_none hk hr, hk] at hfind
        simp at hfind
  | some r =>
    have hd : deleteFromStore m k =
        deleteLoop (m.length + 2) (eraseA m k) r.children [r] := by
      rw [deleteFromStore, hk]
    have H4' : ∀ x, Reach m k x →
        x = k ∨ ∃ f ∈ r.children, Reach (eraseA m k) f x := by
      intro x hr
      induction hr with
      | refl => exact Or.inl rfl
      | step hy hfind hc ihy =>
        rename_i y z n
        rcases ihy with hyk | ⟨f, hf, hr0⟩
        · subst hyk
          rw [hk] at hfind
          obtain rfl : r = n := Option.some.inj hfind
          exact Or.inr ⟨z, hc, Reach.refl⟩
        · by_cases hyk : y = k
          · subst hyk
            rw [hk] at hfind
            obtain rfl : r = n := Option.some.inj hfind
            exact Or.inr ⟨z, hc, Reach.refl⟩
          · refine Or.inr ⟨f, hf, Reach.step hr0 ?_ hc⟩
            rw [findA_eraseA, if_neg hyk]
            exact hfind
    have spec := deleteLoop_spec m k
      (m.length + 2) (eraseA m k)
      r.children [k] [r]
      (by have := length_eraseA_le m k; omega)
      (by intro x; rw [findA_eraseA]; simp)
      (fun f hf => Reach.step Reach.refl hk hf)
      (by intro d hd0; rw [List.mem_singleton] at hd0; rw [hd0]; exact Reach.refl)
      (by
        intro x hr _
        rcases H4' x hr with h | h
        · exact Or.inl (List.mem_singleton.mpr h)
        · exact Or.inr h)
      (by intro v; simp [hk, eq_comm])
    refine ⟨?_, ?_, ?_⟩
    · intro x hr
      rw [hd]
      exact spec.1 x hr
    · intro x hr
      rw [hd]
      exact spec.2.1 x hr
    · intro v
      rw [hd]
      exact spec.2.2 v

/-- C5 (amended): `delete_subtree(k)` removes exactly the keys transitively
reachable from `k` through `children` links (leaving every other entry
untouched), and returns exactly the removed records.  (The claim's further
assertion that no remaining record still references a removed key is false:
the deleted node's parent keeps its dangling `children` entry, see the
counterexample.) -/
theorem C5_delete_subtree_characterization {K M : Type} [DecidableEq K]
    (s : Organizer K M) (k : K) :
    (∀ x, Reach s.nodes_by_key k x →
      findA (delete_children s k).1.nodes_by_key x = none) ∧
    (∀ x, ¬ Reach s.nodes_by_key k x →
      findA (delete_children s k).1.nodes_by_key x = findA s.nodes_by_key x) ∧
    (∀ v, v ∈ (delete_children s k).2 ↔
      ∃ x, Reach s.nodes_by_key k x ∧ findA s.nodes_by_key x = some v) :=
  deleteFromStore_spec s.nodes_by_key k

/-- Witness for C5 at a concrete input: deleting the subtree at key 2 of
the retained chain `1 → 2 → 3` removes the reachable key 3. -/
theorem C5_delete_subtree_characterization_witness :
    findA (delete_children exC4 2).1.nodes_by_key 3 = none :=
  (C5_delete_subtree_characterization exC4 2).1 3
    (Reach.step (n := exNc 2 2 0 1 [3]) Reach.refl (by decide) (by decide))

/-! ## C6 (amended): the only branch-selection panic -/

/-- C6 (amended): `find_longest_branch` fails (panics) exactly when the
height-index bucket at the current frontier height is absent; every other
state — including a present-but-empty bucket and a missing record on the
parent walk — returns a key without failing. -/
theorem C6_panic_iff_frontier_bucket_absent {K M : Type} [DecidableEq K]
    [Inhabited K] (s : Organizer K M) (mv : Option Bool) :
    find_longest_branch s mv = none ↔
      findA s.nodes_by_height s.height = none := by
  cases h : findA s.nodes_by_height s.height with
  | none => simp [find_longest_branch, h]
  | some heads => simp [find_longest_branch, h]

/-! ## C4 (amended): traversal semantics -/

/-- Modelled from the spec's corrected wording of §4.6: the walk from a
cursor visits each record found in the store, stopping (without a visit)
at a record whose key equals the stop key, or when the cursor is no longer
found. -/
def walkSpecFrom {K M : Type} [DecidableEq K] (store : List (K × ReorgNode K M))
    (stop : Option K) : Nat → K → List (ReorgNode K M)
  | 0, _ => []
  | fuel + 1, cursor =>
    match findA store cursor with
    | none => []
    | some node =>
      match stop with
      | some sk =>
        if node.key = sk then []
        else node :: walkSpecFrom store stop fuel node.parent
      | none => node :: walkSpecFrom store stop fuel node.parent

theorem walkLoop_eq_walkSpecFrom {K M : Type} [DecidableEq K]
    (store : List (K × ReorgNode K M)) (stop : Option K) :
    ∀ (fuel : Nat) (cursor : K) (acc : List (ReorgNode K M)),
      walkLoop store stop fuel cursor acc =
        acc ++ walkSpecFrom store stop fuel cursor := by
  intro fuel
  induction fuel with
  | zero => intro cursor acc; simp [walkLoop, walkSpecFrom]
  | succ fuel ih =>
    intro cursor acc
    cases hfind : findA store cursor with
    | none => simp [walkLoop, walkSpecFrom, hfind]
    | some node =>
      cases stop with
      | some sk =>
        by_cases hk : node.key = sk
        · simp [walkLoop, walkSpecFrom, hfind, hk]
        · simp [walkLoop, walkSpecFrom, hfind, hk, ih]
      | none => simp [walkLoop, walkSpecFrom, hfind, ih]

theorem walkSpecFrom_stop_not_mem {K M : Type} [DecidableEq K]
    (store : List (K × ReorgNode K M)) (sk : K) :
    ∀ (fuel : Nat) (cursor : K) (v : ReorgNode K M),
      v ∈ walkSpecFrom store (some sk) fuel cursor → v.key ≠ sk := by
  intro fuel
  induction fuel with
  | zero => intro cursor v hv; simp [walkSpecFrom] at hv
  | succ fuel ih =>
    intro cursor v hv
    cases hfind : findA store cursor with
    | none => simp only [walkSpecFrom, hfind] at hv; simp at hv
    | some node =>
      simp only [walkSpecFrom, hfind] at hv
      by_cases hk : node.key = sk
      · rw [if_pos hk] at hv; simp at hv
      · rw [if_neg hk] at hv
        rcases List.mem_cons.mp hv with rfl | hv
        · exact hk
        · exact ih node.parent v hv

/-- C4 (amended): a walk from a retained head visits the head's record and
then each successive parent found in the store, and with `stop_at` given it
stops exclusively: the visit list is exactly the head followed by the
spec-level exclusive walk from the head's parent, and no visited record on
that tail carries the stop key. -/
theorem C4_walk_stop_exclusive {K M : Type} [DecidableEq K]
    (s : Organizer K M) (h : K) (stop : Option K) (fuel : Nat)
    (hn : ReorgNode K M) (hfind : findA s.nodes_by_key h = some hn) :
    apply_callback_visits s (some h) stop fuel =
      some (hn :: walkSpecFrom s.nodes_by_key stop fuel hn.parent) ∧
    ∀ sk, stop = some sk →
      ∀ v ∈ walkSpecFrom s.nodes_by_key (some sk) fuel hn.parent, v.key ≠ sk := by
  constructor
  · simp only [apply_callback_visits, hfind]
    rw [walkLoop_eq_walkSpecFrom]
    simp
  · rintro sk rfl v hv
    exact walkSpecFrom_stop_not_mem s.nodes_by_key sk fuel hn.parent v hv

/-- Witness for C4 at a concrete input. -/
theorem C4_walk_stop_exclusive_witness :
    findA exC4.nodes_by_key 3 = some (exNc 3 3 0 2 []) ∧
    apply_callback_visits exC4 (some 3) (some 1) 10 =
      some ((exNc 3 3 0 2 []) ::
        walkSpecFrom exC4.nodes_by_key (some 1) 10 (exNc 3 3 0 2 []).parent) :=
  ⟨by decide,
    (C4_walk_stop_exclusive exC4 3 (some 1) 10 (exNc 3 3 0 2 []) (by decide)).1⟩

/-! ## C7 (amended): drain discards strictly-expired buffered records -/

theorem buffer_mem_clearFold {K M : Type} [DecidableEq K] (cl : List K) :
    ∀ (acc : Organizer K M) (p : K × ReorgNode K M),
      p ∈ (cl.foldl clearStep acc).buffer → p ∈ acc.buffer := by
  induction cl with
  | nil => intro acc p hp; exact hp
  | cons c cl ih =>
    intro acc p hp
    have h1 := ih (clearStep acc c) p hp
    exact (eraseA_sublist acc.buffer c).subset h1

theorem buffer_mem_reinsertFold {K M : Type} [DecidableEq K] (l : List K) :
    ∀ (acc : Organizer K M) (p : K × ReorgNode K M),
      p ∈ (l.foldl reinsertStep acc).buffer → p ∈ acc.buffer := by
  induction l with
  | nil => intro acc p hp; exact hp
  | cons r l ih =>
    intro acc p hp
    have h1 := ih (reinsertStep acc r) p hp
    rw [reinsertStep] at h1
    cases hr : findA acc.buffer r with
    | none => rw [hr] at h1; exact h1
    | some x =>
      rw [hr] at h1
      exact (eraseA_sublist acc.buffer r).subset h1

theorem scan_clear_mono {K M : Type} [DecidableEq K] (thresh : Nat)
    (l : List (K × ReorgNode K M)) :
    ∀ (acc : List K × List K × List (K × ReorgNode K M)) (q : K),
      q ∈ acc.2.1 → q ∈ (l.foldl (scanStep thresh) acc).2.1 := by
  induction l with
  | nil => intro acc q hq; exact hq
  | cons p l ih =>
    intro acc q hq
    refine ih (scanStep thresh acc p) q ?_
    rw [scanStep]
    split
    · exact List.mem_append.mpr (Or.inl hq)
    · split
      · exact hq
      · exact hq

theorem scan_clear_complete {K M : Type} [DecidableEq K] (thresh : Nat)
    (l : List (K × ReorgNode K M)) :
    ∀ (acc : List K × List K × List (K × ReorgNode K M))
      (p : K × ReorgNode K M), p ∈ l → p.2.height < thresh →
      p.1 ∈ (l.foldl (scanStep thresh) acc).2.1 := by
  induction l with
  | nil => intro acc p hp; simp at hp
  | cons r l ih =>
    intro acc p hp hlt
    rcases List.mem_cons.mp hp with rfl | hp
    · refine scan_clear_mono thresh l (scanStep thresh acc p) p.1 ?_
      rw [scanStep, if_pos hlt]
      exact List.mem_append.mpr (Or.inr (List.mem_singleton.mpr rfl))
    · exact ih (scanStep thresh acc r) p hp hlt

theorem findA_none_clearFold_aux {K M : Type} [DecidableEq K] (cl : List K) :
    ∀ (acc : Organizer K M) (k : K), findA acc.buffer k = none →
      findA (cl.foldl clearStep acc).buffer k = none := by
  induction cl with
  | nil => intro acc k hk; exact hk
  | cons c cl ih =>
    intro acc k hk
    refine ih (clearStep acc c) k ?_
    rw [clearStep]
    show findA (eraseA acc.buffer c) k = none
    rw [findA_eraseA]
    split
    · rfl
    · exact hk

theorem findA_none_clearFold {K M : Type} [DecidableEq K] (cl : List K) :
    ∀ (acc : Organizer K M) (k : K), k ∈ cl →
      findA (cl.foldl clearStep acc).buffer k = none := by
  induction cl with
  | nil => intro acc k hk; simp at hk
  | cons c cl ih =>
    intro acc k hk
    rcases List.mem_cons.mp hk with rfl | hk
    · refine findA_none_clearFold_aux cl (clearStep acc k) k ?_
      rw [clearStep]
      show findA (eraseA acc.buffer k) k = none
      rw [findA_eraseA, if_pos rfl]
    · exact ih (clearStep acc c) k hk

/-- C7 (amended): after the orphan-buffer drain, no buffered record has
height strictly below the allowed-oldest threshold — every strictly-expired
record is discarded.  (A record at exactly the threshold survives, see the
counterexample.) -/
theorem C7_drain_discards_strictly_expired {K M : Type} [DecidableEq K]
    (s : Organizer K M) (k : K) (b : ReorgNode K M)
    (hfind : findA (drainBuffer s).buffer k = some b) :
    allowed_oldest s ≤ b.height := by
  by_contra hle
  have hlt : b.height < allowed_oldest s := Nat.lt_of_not_le hle
  have hdb : drainBuffer s =
      ((drainScan s.buffer (allowed_oldest s) s.nodes_by_key).2.1).foldl clearStep
        (((drainScan s.buffer (allowed_oldest s) s.nodes_by_key).1).foldl
          reinsertStep
          { s with nodes_by_key :=
              (drainScan s.buffer (allowed_oldest s) s.nodes_by_key).2.2 }) := rfl
  have hmem1 : (k, b) ∈ (drainBuffer s).buffer := mem_of_findA hfind
  rw [hdb] at hmem1
  have hmem2 := buffer_mem_reinsertFold _ _ _ (buffer_mem_clearFold _ _ _ hmem1)
  have hmem3 : (k, b) ∈ s.buffer := hmem2
  have hclear : k ∈ (drainScan s.buffer (allowed_oldest s) s.nodes_by_key).2.1 :=
    scan_clear_complete (allowed_oldest s) s.buffer _ (k, b) hmem3 hlt
  have hnone : findA (drainBuffer s).buffer k = none := by
    rw [hdb]
    exact findA_none_clearFold _ _ k hclear
  rw [hfind] at hnone
  simp at hnone

/-- A state whose buffer holds an unexpired orphan (height 5, threshold 2)
with an absent parent: the drain keeps it. -/
def exC7W : Organizer Nat Unit :=
  { root := exN 0 0 0 999
    nodes_by_key := []
    nodes_by_height := [(3, [4])]
    buffer := [(9, exN 9 5 0 7)]
    height := 3
    allowed_depth := 1
    value_based := false }

/-- Witness for C7 at a concrete input. -/
theorem C7_drain_discards_strictly_expired_witness :
    findA (drainBuffer exC7W).buffer 9 = some (exN 9 5 0 7) ∧
    allowed_oldest exC7W ≤ (exN 9 5 0 7).height :=
  ⟨by decide, C7_drain_discards_strictly_expired exC7W 9 (exN 9 5 0 7) (by decide)⟩

/-! ## C2 (amended): root advancement triggers on exact equality -/

theorem deadBranchStep_root {K M : Type} [DecidableEq K]
    (acc : Organizer K M) (dead : K) :
    (deadBranchStep acc dead).root = acc.root := by
  rw [deadBranchStep]
  split
  · rfl
  · rfl

theorem deadFold_root {K M : Type} [DecidableEq K] (ds : List K) :
    ∀ acc : Organizer K M, (ds.foldl deadBranchStep acc).root = acc.root := by
  induction ds with
  | nil => intro acc; rfl
  | cons d ds ih =>
    intro acc
    simp only [List.foldl_cons]
    rw [ih (deadBranchStep acc d), deadBranchStep_root]

theorem findA_none_deadFold {K M : Type} [DecidableEq K] (ds : List K) :
    ∀ (acc : Organizer K M) (x : K), findA acc.nodes_by_key x = none →
      findA ((ds.foldl deadBranchStep acc).nodes_by_key) x = none := by
  induction ds with
  | nil => intro acc x hx; exact hx
  | cons d ds ih =>
    intro acc x hx
    simp only [List.foldl_cons]
    refine ih (deadBranchStep acc d) x ?_
    rw [deadBranchStep]
    split
    · exact hx
    · show findA (deleteFromStore acc.nodes_by_key d).1 x = none
      by_cases hr : Reach acc.nodes_by_key d x
      · exact (deleteFromStore_spec acc.nodes_by_key d).1 x hr
      · rw [(deleteFromStore_spec acc.nodes_by_key d).2.1 x hr]
        exact hx

theorem reach_transfer {K M : Type} [DecidableEq K]
    {m : List (K × ReorgNode K M)} {d0 d x : K} (hr : Reach m d x) :
    Reach (deleteFromStore m d0).1 d x ∨ Reach m d0 x := by
  induction hr with
  | refl => exact Or.inl Reach.refl
  | step hy hfind hc ihy =>
    rename_i y z n
    rcases ihy with h1 | h2
    · by_cases hr0 : Reach m d0 y
      · exact Or.inr (Reach.step hr0 hfind hc)
      · have hfd : findA (deleteFromStore m d0).1 y = some n := by
          rw [(deleteFromStore_spec m d0).2.1 y hr0]
          exact hfind
        exact Or.inl (Reach.step h1 hfd hc)
    · exact Or.inr (Reach.step h2 hfind hc)

theorem deadFold_removes {K M : Type} [DecidableEq K] (ds : List K) :
    ∀ (acc : Organizer K M) (d x : K), d ∈ ds → d ≠ acc.root.key →
      Reach acc.nodes_by_key d x →
      findA ((ds.foldl deadBranchStep acc).nodes_by_key) x = none := by
  induction ds with
  | nil => intro acc d x hd; simp at hd
  | cons d0 ds ih =>
    intro acc d x hd hdr hr
    simp only [List.foldl_cons]
    by_cases hg : d0 = acc.root.key
    · rw [show deadBranchStep acc d0 = acc from by rw [deadBranchStep, if_pos hg]]
      rcases List.mem_cons.mp hd with rfl | hd1
      · exact absurd hg hdr
      · exact ih acc d x hd1 hdr hr
    · rw [show deadBranchStep acc d0 = (delete_children acc d0).1
        from by rw [deadBranchStep, if_neg hg]]
      rcases List.mem_cons.mp hd with rfl | hd1
      · refine findA_none_deadFold ds (delete_children acc d).1 x ?_
        exact (deleteFromStore_spec acc.nodes_by_key d).1 x hr
      · rcases @reach_transfer K M _ acc.nodes_by_key d0 d x hr with h1 | h2
        · exact ih (delete_children acc d0).1 d x hd1 hdr h1
        · refine findA_none_deadFold ds (delete_children acc d0).1 x ?_
          exact (deleteFromStore_spec acc.nodes_by_key d0).1 x h2

/-- C2 (amended): at the start of every `insert` call that passes the two
reject guards, root advancement runs; it acts only when
`root.height = allowed_oldest()` holds with exact equality (computed from
the pre-commit frontier): with no child it is a no-op, with exactly one
stored child that child's record is promoted to root and removed from the
store, and with two or more children the branch-selector winner is promoted
while every other child and its entire subtree (everything reachable from it
in the post-promotion store) is deleted.  When the equality fails — even if
`root.height < allowed_oldest()`, i.e. the claim's `≥` eligibility holds —
nothing is advanced. -/
theorem C2_advancement_on_equality_only {K M : Type} [DecidableEq K]
    [Inhabited K] (s : Organizer K M) (node : ReorgNode K M) (mv : Option Bool)
    (hg1 : ¬ node.height ≤ allowed_oldest s)
    (hg2 : ¬ (containsA s.nodes_by_key node.parent = false ∧
      node.height ≤ s.height)) :
    insert s node mv =
      (advanceRoot s mv).bind (fun s1 => some (attachAndFinish s1 node)) ∧
    (s.root.height ≠ allowed_oldest s → advanceRoot s mv = some s) ∧
    (s.root.height = allowed_oldest s → s.root.children = [] →
      advanceRoot s mv = some s) ∧
    (∀ c r, s.root.height = allowed_oldest s → s.root.children = [c] →
      findA s.nodes_by_key c = some r →
      advanceRoot s mv =
        some { s with root := r, nodes_by_key := eraseA s.nodes_by_key c }) ∧
    (∀ s1, s.root.height = allowed_oldest s → 2 ≤ s.root.children.length →
      advanceRoot s mv = some s1 →
      ∃ w r, find_longest_branch s (some (mv.getD s.value_based)) = some w ∧
        findA s.nodes_by_key w = some r ∧ s1.root = r ∧
        ∀ d ∈ s.root.children, d ≠ r.key →
          ∀ x, Reach (eraseA s.nodes_by_key w) d x →
            findA s1.nodes_by_key x = none) := by
  refine ⟨?_, ?_, ?_, ?_, ?_⟩
  · rw [insert, if_neg hg1, if_neg hg2]
    cases h : advanceRoot s mv with
    | none => rfl
    | some s1 => rfl
  · intro hne
    rw [advanceRoot, if_neg hne]
  · intro heq hch
    rw [advanceRoot, if_pos heq, hch]
  · intro c r heq hch hfind
    rw [advanceRoot, if_pos heq, hch]
    simp only [hfind]
  · intro s1 heq hlen hadv
    rcases hch : s.root.children with _ | ⟨c1, _ | ⟨c2, cs⟩⟩
    · rw [hch] at hlen; simp at hlen
    · rw [hch] at hlen; simp at hlen
    · rw [advanceRoot, if_pos heq, hch] at hadv
      cases hw : find_longest_branch s (some (mv.getD s.value_based)) with
      | none =>
        simp only [hw] at hadv
        exact Option.noConfusion hadv
      | some w =>
        cases hfr : findA s.nodes_by_key w with
        | none =>
          simp only [hw, hfr] at hadv
          exact Option.noConfusion hadv
        | some r =>
          simp only [hw, hfr, Option.some.injEq] at hadv
          subst hadv
          refine ⟨w, r, rfl, hfr, ?_, ?_⟩
          · rw [deadFold_root]
          · intro d hd hdne x hrx
            exact deadFold_removes (c1 :: c2 :: cs)
              { s with root := r, nodes_by_key := eraseA s.nodes_by_key w }
              d x hd hdne hrx

/-- Witness for C2 at a concrete input: a state whose root height differs
from the allowed-oldest threshold is left unadvanced by an insert passing
both guards. -/
theorem C2_advancement_on_equality_only_witness :
    exC7W.root.height ≠ allowed_oldest exC7W ∧
    advanceRoot exC7W none = some exC7W :=
  ⟨by decide,
    (C2_advancement_on_equality_only exC7W (exN 8 6 0 4) none
      (by decide) (by decide)).2.1 (by decide)⟩

/-! ## C9 (amended): key-set lemmas -/

theorem findA_isSome_iff_mem_keysOf {K V : Type} [DecidableEq K]
    (m : List (K × V)) (k : K) :
    (findA m k).isSome = true ↔ k ∈ keysOf m := by
  induction m with
  | nil => simp [findA, keysOf]
  | cons p m ih =>
    by_cases hp : p.1 = k
    · simp [findA, keysOf, hp]
    · simp only [findA, if_neg hp, keysOf, List.map_cons, List.mem_cons]
      rw [show keysOf m = m.map Prod.fst from rfl] at ih
      rw [ih]
      constructor
      · exact fun h => Or.inr h
      · rintro (h | h)
        · exact absurd h.symm hp
        · exact h

theorem findA_eq_none_iff {K V : Type} [DecidableEq K]
    (m : List (K × V)) (k : K) :
    findA m k = none ↔ k ∉ keysOf m := by
  rw [← findA_isSome_iff_mem_keysOf]
  cases findA m k <;> simp

theorem containsA_false_iff {K V : Type} [DecidableEq K]
    (m : List (K × V)) (k : K) :
    containsA m k = false ↔ k ∉ keysOf m := by
  rw [containsA, Bool.eq_false_iff, Ne, findA_isSome_iff_mem_keysOf]

theorem mem_keysOf_of_findA {K V : Type} [DecidableEq K]
    {m : List (K × V)} {k : K} {v : V} (h : findA m k = some v) :
    k ∈ keysOf m := by
  rw [← findA_isSome_iff_mem_keysOf, h]
  rfl

theorem not_mem_keysOf_eraseA {K V : Type} [DecidableEq K]
    (m : List (K × V)) (k : K) : k ∉ keysOf (eraseA m k) := by
  induction m with
  | nil => simp [eraseA, keysOf]
  | cons p m ih =>
    by_cases hp : p.1 = k
    · rw [eraseA, if_pos hp]
      exact ih
    · rw [eraseA, if_neg hp]
      simp only [keysOf, List.map_cons, List.mem_cons]
      rintro (h | h)
      · exact hp h.symm
      · exact ih h

theorem keysOf_eraseA_subset {K V : Type} [DecidableEq K]
    (m : List (K × V)) (k : K) :
    ∀ x ∈ keysOf (eraseA m k), x ∈ keysOf m :=
  fun _ hx => ((eraseA_sublist m k).map Prod.fst).subset hx

theorem keysOf_updateA {K V : Type} [DecidableEq K]
    (m : List (K × V)) (k : K) (f : V → V) :
    keysOf (updateA m k f) = keysOf m := by
  induction m with
  | nil => rfl
  | cons p m ih =>
    show keysOf ((if p.1 = k then (p.1, f p.2) else p) :: updateA m k f) =
      keysOf (p :: m)
    by_cases hp : p.1 = k
    · rw [if_pos hp]
      show p.1 :: keysOf (updateA m k f) = p.1 :: keysOf m
      rw [ih]
    · rw [if_neg hp]
      show p.1 :: keysOf (updateA m k f) = p.1 :: keysOf m
      rw [ih]

theorem mem_updateA {K V : Type} [DecidableEq K]
    {m : List (K × V)} {k : K} {f : V → V} {p : K × V}
    (hp : p ∈ updateA m k f) :
    ∃ q ∈ m, p = if q.1 = k then (q.1, f q.2) else q := by
  obtain ⟨q, hq, hqp⟩ := List.mem_map.mp hp
  exact ⟨q, hq, hqp.symm⟩

theorem insertA_not_contains {K V : Type} [DecidableEq K]
    {m : List (K × V)} {k : K} (v : V) (h : containsA m k = false) :
    insertA m k v = m ++ [(k, v)] := by
  simp [insertA, h]

theorem foldStep_sublist {K M : Type} [DecidableEq K] (F : List K) :
    ∀ (m : List (K × ReorgNode K M)) (n0 : List K) (r0 : List (ReorgNode K M)),
      ((F.foldl deleteStep (m, n0, r0)).1).Sublist m := by
  induction F with
  | nil => intro m n0 r0; exact List.Sublist.refl m
  | cons f F ih =>
    intro m n0 r0
    simp only [List.foldl_cons]
    cases hf : findA m f with
    | some r =>
      rw [show deleteStep (m, n0, r0) f = (eraseA m f, n0 ++ r.children, r0 ++ [r])
        from by simp [deleteStep, hf]]
      exact (ih _ _ _).trans (eraseA_sublist m f)
    | none =>
      rw [show deleteStep (m, n0, r0) f = (m, n0, r0) from by simp [deleteStep, hf]]
      exact ih _ _ _

theorem deleteLoop_sublist {K M : Type} [DecidableEq K] :
    ∀ (fuel : Nat) (m : List (K × ReorgNode K M)) (F : List K)
      (ret : List (ReorgNode K M)), ((deleteLoop fuel m F ret).1).Sublist m := by
  intro fuel
  induction fuel with
  | zero => intro m F ret; exact List.Sublist.refl m
  | succ fuel ih =>
    intro m F ret
    rw [deleteLoop]
    split
    · exact List.Sublist.refl m
    · exact (ih _ _ _).trans (foldStep_sublist F m [] ret)

theorem deleteFromStore_sublist {K M : Type} [DecidableEq K]
    (m : List (K × ReorgNode K M)) (k : K) :
    ((deleteFromStore m k).1).Sublist m := by
  rw [deleteFromStore]
  cases hk : findA m k with
  | none => exact List.Sublist.refl m
  | some r => exact (deleteLoop_sublist _ _ _ _).trans (eraseA_sublist m k)

/-! ## C9 (amended): the well-formedness invariant -/

/-- The key discipline the engine relies on: the root's key is neither a
store key nor a buffer key, store and buffer keys are duplicate-free and
disjoint, and every map entry's record carries the map key in its `key`
field. -/
structure OrgInv {K M : Type} [DecidableEq K] (s : Organizer K M) : Prop where
  root_store : s.root.key ∉ keysOf s.nodes_by_key
  root_buffer : s.root.key ∉ keysOf s.buffer
  store_nodup : (keysOf s.nodes_by_key).Nodup
  buffer_nodup : (keysOf s.buffer).Nodup
  disj : ∀ x ∈ keysOf s.nodes_by_key, x ∉ keysOf s.buffer
  store_coh : ∀ p ∈ s.nodes_by_key, p.2.key = p.1
  buffer_coh : ∀ p ∈ s.buffer, p.2.key = p.1

theorem OrgInv_of_components {K M : Type} [DecidableEq K]
    {s s1 : Organizer K M} (hInv : OrgInv s) (hroot : s1.root = s.root)
    (hsub : s1.nodes_by_key.Sublist s.nodes_by_key)
    (hbuf : s1.buffer = s.buffer) : OrgInv s1 := by
  have hkeys : ∀ x ∈ keysOf s1.nodes_by_key, x ∈ keysOf s.nodes_by_key :=
    fun x hx => (hsub.map Prod.fst).subset hx
  refine ⟨?_, ?_, ?_, ?_, ?_, ?_, ?_⟩
  · rw [hroot]
    intro hmem
    exact hInv.root_store (hkeys _ hmem)
  · rw [hroot, hbuf]
    exact hInv.root_buffer
  · exact hInv.store_nodup.sublist (hsub.map Prod.fst)
  · rw [hbuf]
    exact hInv.buffer_nodup
  · intro x hx
    rw [hbuf]
    exact hInv.disj x (hkeys x hx)
  · intro p hp
    exact hInv.store_coh p (hsub.subset hp)
  · rw [hbuf]
    exact hInv.buffer_coh

theorem OrgInv_of_buffer_sub {K M : Type} [DecidableEq K]
    {s s1 : Organizer K M} (hInv : OrgInv s) (hroot : s1.root = s.root)
    (hst : s1.nodes_by_key = s.nodes_by_key)
    (hsub : s1.buffer.Sublist s.buffer) : OrgInv s1 := by
  have hkeys : ∀ x ∈ keysOf s1.buffer, x ∈ keysOf s.buffer :=
    fun x hx => (hsub.map Prod.fst).subset hx
  refine ⟨?_, ?_, ?_, ?_, ?_, ?_, ?_⟩
  · rw [hroot, hst]
    exact hInv.root_store
  · rw [hroot]
    intro hmem
    exact hInv.root_buffer (hkeys _ hmem)
  · rw [hst]
    exact hInv.store_nodup
  · exact hInv.buffer_nodup.sublist (hsub.map Prod.fst)
  · intro x hx hxb
    rw [hst] at hx
    exact hInv.disj x hx (hkeys _ hxb)
  · rw [hst]
    exact hInv.store_coh
  · intro p hp
    exact hInv.buffer_coh p (hsub.subset hp)

theorem OrgInv_delete {K M : Type} [DecidableEq K]
    {s : Organizer K M} (hInv : OrgInv s) (k : K) :
    OrgInv (delete_children s k).1 :=
  OrgInv_of_components hInv rfl (deleteFromStore_sublist s.nodes_by_key k) rfl

theorem OrgInv_promote {K M : Type} [DecidableEq K] {s : Organizer K M}
    (hInv : OrgInv s) {c : K} {r : ReorgNode K M}
    (hfr : findA s.nodes_by_key c = some r) :
    OrgInv { s with root := r, nodes_by_key := eraseA s.nodes_by_key c } ∧
    r.key = c := by
  have hrc : r.key = c := hInv.store_coh (c, r) (mem_of_findA hfr)
  refine ⟨⟨?_, ?_, ?_, ?_, ?_, ?_, ?_⟩, hrc⟩
  · show r.key ∉ keysOf (eraseA s.nodes_by_key c)
    rw [hrc]
    exact not_mem_keysOf_eraseA _ _
  · show r.key ∉ keysOf s.buffer
    rw [hrc]
    exact hInv.disj c (mem_keysOf_of_findA hfr)
  · exact hInv.store_nodup.sublist ((eraseA_sublist _ _).map Prod.fst)
  · exact hInv.buffer_nodup
  · intro x hx
    exact hInv.disj x (keysOf_eraseA_subset _ _ x hx)
  · intro p hp
    exact hInv.store_coh p ((eraseA_sublist _ _).subset hp)
  · exact hInv.buffer_coh

theorem deadFold_buffer {K M : Type} [DecidableEq K] (ds : List K) :
    ∀ acc : Organizer K M, (ds.foldl deadBranchStep acc).buffer = acc.buffer := by
  induction ds with
  | nil => intro acc; rfl
  | cons d ds ih =>
    intro acc
    simp only [List.foldl_cons]
    rw [ih (deadBranchStep acc d)]
    rw [deadBranchStep]
    split
    · rfl
    · rfl

theorem deadFold_store_sublist {K M : Type} [DecidableEq K] (ds : List K) :
    ∀ acc : Organizer K M,
      ((ds.foldl deadBranchStep acc).nodes_by_key).Sublist acc.nodes_by_key := by
  induction ds with
  | nil => intro acc; exact List.Sublist.refl _
  | cons d ds ih =>
    intro acc
    simp only [List.foldl_cons]
    refine (ih (deadBranchStep acc d)).trans ?_
    rw [deadBranchStep]
    split
    · exact List.Sublist.refl _
    · exact deleteFromStore_sublist acc.nodes_by_key d

theorem OrgInv_deadFold {K M : Type} [DecidableEq K] (ds : List K) :
    ∀ acc : Organizer K M, OrgInv acc → OrgInv (ds.foldl deadBranchStep acc) := by
  induction ds with
  | nil => intro acc h; exact h
  | cons d ds ih =>
    intro acc h
    simp only [List.foldl_cons]
    refine ih (deadBranchStep acc d) ?_
    rw [deadBranchStep]
    split
    · exact h
    · exact OrgInv_delete h d

theorem advanceRoot_inv {K M : Type} [DecidableEq K] [Inhabited K]
    {s s1 : Organizer K M} {mv : Option Bool}
    (hInv : OrgInv s) (hadv : advanceRoot s mv = some s1) :
    OrgInv s1 ∧ s1.buffer = s.buffer ∧
    (s1.root.key = s.root.key ∨ s1.root.key ∈ keysOf s.nodes_by_key) ∧
    (∀ x ∈ keysOf s1.nodes_by_key, x ∈ keysOf s.nodes_by_key) := by
  rw [advanceRoot] at hadv
  by_cases heq : s.root.height = allowed_oldest s
  · rw [if_pos heq] at hadv
    rcases hch : s.root.children with _ | ⟨c, _ | ⟨c2, cs⟩⟩
    · simp only [hch] at hadv
      obtain rfl := Option.some.inj hadv
      exact ⟨hInv, rfl, Or.inl rfl, fun x hx => hx⟩
    · simp only [hch] at hadv
      cases hfr : findA s.nodes_by_key c with
      | none =>
        simp only [hfr] at hadv
        exact Option.noConfusion hadv
      | some r =>
        simp only [hfr, Option.some.injEq] at hadv
        subst hadv
        obtain ⟨hI, hrc⟩ := OrgInv_promote hInv hfr
        refine ⟨hI, rfl, Or.inr ?_, ?_⟩
        · show r.key ∈ keysOf s.nodes_by_key
          rw [hrc]
          exact mem_keysOf_of_findA hfr
        · intro x hx
          exact keysOf_eraseA_subset _ _ x hx
    · simp only [hch] at hadv
      cases hw : find_longest_branch s (some (mv.getD s.value_based)) with
      | none =>
        simp only [hw] at hadv
        exact Option.noConfusion hadv
      | some w =>
        cases hfr : findA s.nodes_by_key w with
        | none =>
          simp only [hw, hfr] at hadv
          exact Option.noConfusion hadv
        | some r =>
          simp only [hw, hfr, Option.some.injEq] at hadv
          subst hadv
          obtain ⟨hI, hrc⟩ := OrgInv_promote hInv hfr
          refine ⟨OrgInv_deadFold _ _ hI, ?_, Or.inr ?_, ?_⟩
          · rw [deadFold_buffer]
          · rw [deadFold_root]
            show r.key ∈ keysOf s.nodes_by_key
            rw [hrc]
            exact mem_keysOf_of_findA hfr
          · intro x hx
            have hx1 := ((deadFold_store_sublist _ _).map Prod.fst).subset hx
            exact keysOf_eraseA_subset _ _ x hx1
  · rw [if_neg heq] at hadv
    obtain rfl := Option.some.inj hadv
    exact ⟨hInv, rfl, Or.inl rfl, fun x hx => hx⟩

theorem updateA_coh {K M : Type} [DecidableEq K]
    {m : List (K × ReorgNode K M)} {k : K} {f : ReorgNode K M → ReorgNode K M}
    (hcoh : ∀ p ∈ m, p.2.key = p.1) (hf : ∀ v, (f v).key = v.key) :
    ∀ p ∈ updateA m k f, p.2.key = p.1 := by
  intro p hp
  obtain ⟨q, hq, hpq⟩ := mem_updateA hp
  subst hpq
  by_cases hqk : q.1 = k
  · rw [if_pos hqk]
    show (f q.2).key = q.1
    rw [hf]
    exact hcoh q hq
  · rw [if_neg hqk]
    exact hcoh q hq

theorem scan_store_keys {K M : Type} [DecidableEq K] (th : Nat)
    (l : List (K × ReorgNode K M)) :
    ∀ acc : List K × List K × List (K × ReorgNode K M),
      keysOf ((l.foldl (scanStep th) acc).2.2) = keysOf acc.2.2 := by
  induction l with
  | nil => intro acc; rfl
  | cons p l ih =>
    intro acc
    simp only [List.foldl_cons]
    rw [ih (scanStep th acc p), scanStep]
    split
    · rfl
    · split
      · exact keysOf_updateA acc.2.2 p.2.parent
          (fun n => { n with children := n.children ++ [p.1] })
      · rfl

theorem scan_store_coh {K M : Type} [DecidableEq K] (th : Nat)
    (l : List (K × ReorgNode K M)) :
    ∀ acc : List K × List K × List (K × ReorgNode K M),
      (∀ p ∈ acc.2.2, p.2.key = p.1) →
      ∀ p ∈ (l.foldl (scanStep th) acc).2.2, p.2.key = p.1 := by
  induction l with
  | nil => intro acc h; exact h
  | cons q l ih =>
    intro acc h
    simp only [List.foldl_cons]
    refine ih (scanStep th acc q) ?_
    rw [scanStep]
    split
    · exact h
    · split
      · exact updateA_coh
          (f := fun n => { n with children := n.children ++ [q.1] }) h
          (fun v => rfl)
      · exact h

theorem OrgInv_reinsertStep {K M : Type} [DecidableEq K]
    {acc : Organizer K M} (hInv : OrgInv acc) (r : K) :
    OrgInv (reinsertStep acc r) := by
  cases hfr : findA acc.buffer r with
  | none =>
    simp only [reinsertStep, hfr]
    exact hInv
  | some x =>
    simp only [reinsertStep, hfr]
    have hxr : x.key = r := hInv.buffer_coh (r, x) (mem_of_findA hfr)
    have hrb : r ∈ keysOf acc.buffer := mem_keysOf_of_findA hfr
    have hrs : r ∉ keysOf acc.nodes_by_key := fun hmem => hInv.disj r hmem hrb
    have hrroot : acc.root.key ≠ r := fun h => hInv.root_buffer (h ▸ hrb)
    have hins : insertA acc.nodes_by_key r x = acc.nodes_by_key ++ [(r, x)] :=
      insertA_not_contains x ((containsA_false_iff _ _).mpr hrs)
    have hkeys : keysOf (insertA acc.nodes_by_key r x) =
        keysOf acc.nodes_by_key ++ [r] := by
      rw [hins]
      simp [keysOf]
    refine ⟨?_, ?_, ?_, ?_, ?_, ?_, ?_⟩
    · show acc.root.key ∉ keysOf (insertA acc.nodes_by_key r x)
      rw [hkeys]
      intro hmem
      rcases List.mem_append.mp hmem with h | h
      · exact hInv.root_store h
      · rw [List.mem_singleton] at h
        exact hrroot h
    · show acc.root.key ∉ keysOf (eraseA acc.buffer r)
      intro hmem
      exact hInv.root_buffer (keysOf_eraseA_subset _ _ _ hmem)
    · show (keysOf (insertA acc.nodes_by_key r x)).Nodup
      rw [hkeys, List.nodup_append]
      refine ⟨hInv.store_nodup, List.nodup_singleton r, ?_⟩
      intro a ha hb
      rw [List.mem_singleton] at hb
      exact hrs (hb ▸ ha)
    · exact hInv.buffer_nodup.sublist ((eraseA_sublist _ _).map Prod.fst)
    · intro y hy hyb
      rw [hkeys] at hy
      have hyb1 := keysOf_eraseA_subset _ _ _ hyb
      rcases List.mem_append.mp hy with h | h
      · exact hInv.disj y h hyb1
      · rw [List.mem_singleton] at h
        subst h
        exact not_mem_keysOf_eraseA _ _ hyb
    · intro p hp
      rw [hins] at hp
      rcases List.mem_append.mp hp with h | h
      · exact hInv.store_coh p h
      · rw [List.mem_singleton] at h
        subst h
        exact hxr
    · intro p hp
      exact hInv.buffer_coh p ((eraseA_sublist _ _).subset hp)

theorem OrgInv_reinsertFold {K M : Type} [DecidableEq K] (l : List K) :
    ∀ acc : Organizer K M, OrgInv acc → OrgInv (l.foldl reinsertStep acc) := by
  induction l with
  | nil => intro acc h; exact h
  | cons r l ih =>
    intro acc h
    simp only [List.foldl_cons]
    exact ih _ (OrgInv_reinsertStep h r)

theorem OrgInv_clearFold {K M : Type} [DecidableEq K] (l : List K) :
    ∀ acc : Organizer K M, OrgInv acc → OrgInv (l.foldl clearStep acc) := by
  induction l with
  | nil => intro acc h; exact h
  | cons c l ih =>
    intro acc h
    simp only [List.foldl_cons]
    exact ih _ (OrgInv_of_buffer_sub h rfl rfl (eraseA_sublist _ _))

theorem drainBuffer_inv {K M : Type} [DecidableEq K] {s : Organizer K M}
    (hInv : OrgInv s) : OrgInv (drainBuffer s) := by
  have hk :
      keysOf ((drainScan s.buffer (allowed_oldest s) s.nodes_by_key).2.2) =
        keysOf s.nodes_by_key :=
    scan_store_keys (allowed_oldest s) s.buffer ([], [], s.nodes_by_key)
  have hbase : OrgInv { s with nodes_by_key :=
      (drainScan s.buffer (allowed_oldest s) s.nodes_by_key).2.2 } := by
    refine ⟨?_, ?_, ?_, ?_, ?_, ?_, ?_⟩
    · show s.root.key ∉ keysOf _
      rw [hk]
      exact hInv.root_store
    · exact hInv.root_buffer
    · show (keysOf _).Nodup
      rw [hk]
      exact hInv.store_nodup
    · exact hInv.buffer_nodup
    · intro y hy
      rw [show keysOf ({ s with nodes_by_key :=
          (drainScan s.buffer (allowed_oldest s) s.nodes_by_key).2.2 } :
          Organizer K M).nodes_by_key =
        keysOf s.nodes_by_key from hk] at hy
      exact hInv.disj y hy
    · exact scan_store_coh (allowed_oldest s) s.buffer _ hInv.store_coh
    · exact hInv.buffer_coh
  exact OrgInv_clearFold _ _ (OrgInv_reinsertFold _ _ hbase)

theorem foldEraseA_sublist {K V : Type} [DecidableEq K] (l : List K) :
    ∀ m : List (K × V), (l.foldl (fun m o => eraseA m o) m).Sublist m := by
  induction l with
  | nil => intro m; exact List.Sublist.refl m
  | cons o l ih =>
    intro m
    simp only [List.foldl_cons]
    exact (ih (eraseA m o)).trans (eraseA_sublist m o)

theorem commitNode_inv {K M : Type} [DecidableEq K] {s : Organizer K M}
    {node : ReorgNode K M} (hInv : OrgInv s) (h1 : node.key ≠ s.root.key)
    (h2 : node.key ∉ keysOf s.nodes_by_key) (h3 : node.key ∉ keysOf s.buffer) :
    OrgInv (commitNode s node) := by
  have hins : insertA s.nodes_by_key node.key node =
      s.nodes_by_key ++ [(node.key, node)] :=
    insertA_not_contains node ((containsA_false_iff _ _).mpr h2)
  have hkeys : keysOf (insertA s.nodes_by_key node.key node) =
      keysOf s.nodes_by_key ++ [node.key] := by
    rw [hins]
    simp [keysOf]
  refine ⟨?_, ?_, ?_, ?_, ?_, ?_, ?_⟩
  · show s.root.key ∉ keysOf (insertA s.nodes_by_key node.key node)
    rw [hkeys]
    intro hmem
    rcases List.mem_append.mp hmem with h | h
    · exact hInv.root_store h
    · rw [List.mem_singleton] at h
      exact h1 h.symm
  · exact hInv.root_buffer
  · show (keysOf (insertA s.nodes_by_key node.key node)).Nodup
    rw [hkeys, List.nodup_append]
    refine ⟨hInv.store_nodup, List.nodup_singleton _, ?_⟩
    intro a ha hb
    rw [List.mem_singleton] at hb
    exact h2 (hb ▸ ha)
  · exact hInv.buffer_nodup
  · intro y hy
    rw [show keysOf (commitNode s node).nodes_by_key =
      keysOf s.nodes_by_key ++ [node.key] from hkeys] at hy
    rcases List.mem_append.mp hy with h | h
    · exact hInv.disj y h
    · rw [List.mem_singleton] at h
      subst h
      exact h3
  · intro p hp
    rw [show (commitNode s node).nodes_by_key =
      s.nodes_by_key ++ [(node.key, node)] from hins] at hp
    rcases List.mem_append.mp hp with h | h
    · exact hInv.store_coh p h
    · rw [List.mem_singleton] at h
      subst h
      rfl
  · exact hInv.buffer_coh

theorem cleanupOld_inv {K M : Type} [DecidableEq K] {s : Organizer K M}
    (hInv : OrgInv s) : OrgInv (cleanupOld s) := by
  have hs2 : OrgInv
      { s with nodes_by_key := eraseA s.nodes_by_key s.root.parent } :=
    OrgInv_of_components hInv rfl (eraseA_sublist _ _) rfl
  rw [cleanupOld]
  cases hb : findA s.nodes_by_height (s.root.height - 1) with
  | none => simp only [hb]; exact hs2
  | some bucket =>
    simp only [hb]
    exact OrgInv_of_components hs2 rfl (foldEraseA_sublist _ _) rfl

theorem commitAndDrain_inv {K M : Type} [DecidableEq K] {s : Organizer K M}
    {node : ReorgNode K M} (hInv : OrgInv s) (h1 : node.key ≠ s.root.key)
    (h2 : node.key ∉ keysOf s.nodes_by_key) (h3 : node.key ∉ keysOf s.buffer) :
    OrgInv (commitAndDrain s node) :=
  drainBuffer_inv (cleanupOld_inv (commitNode_inv hInv h1 h2 h3))

theorem attachAndFinish_inv {K M : Type} [DecidableEq K] {s : Organizer K M}
    {node : ReorgNode K M} (hInv : OrgInv s) (h1 : node.key ≠ s.root.key)
    (h2 : node.key ∉ keysOf s.nodes_by_key) (h3 : node.key ∉ keysOf s.buffer) :
    OrgInv (attachAndFinish s node) := by
  rw [attachAndFinish]
  by_cases hc : containsA s.nodes_by_key node.parent = true
  · rw [if_pos hc]
    have hInv1 : OrgInv
        { s with nodes_by_key := pushChild s.nodes_by_key node.parent node.key } := by
      refine ⟨?_, ?_, ?_, ?_, ?_, ?_, ?_⟩
      · show s.root.key ∉ keysOf (pushChild s.nodes_by_key node.parent node.key)
        rw [pushChild, keysOf_updateA]
        exact hInv.root_store
      · exact hInv.root_buffer
      · show (keysOf (pushChild s.nodes_by_key node.parent node.key)).Nodup
        rw [pushChild, keysOf_updateA]
        exact hInv.store_nodup
      · exact hInv.buffer_nodup
      · intro y hy
        rw [show keysOf (pushChild s.nodes_by_key node.parent node.key) =
          keysOf s.nodes_by_key from by rw [pushChild, keysOf_updateA]] at hy
        exact hInv.disj y hy
      · exact updateA_coh
          (f := fun n => { n with children := n.children ++ [node.key] })
          hInv.store_coh (fun v => rfl)
      · exact hInv.buffer_coh
    refine commitAndDrain_inv hInv1 h1 ?_ h3
    show node.key ∉ keysOf (pushChild s.nodes_by_key node.parent node.key)
    rw [pushChild, keysOf_updateA]
    exact h2
  · rw [if_neg hc]
    by_cases hp : node.parent = s.root.key
    · rw [if_pos hp]
      have hInv1 : OrgInv
          { s with root :=
            { s.root with children := s.root.children ++ [node.key] } } :=
        ⟨hInv.root_store, hInv.root_buffer, hInv.store_nodup, hInv.buffer_nodup,
          hInv.disj, hInv.store_coh, hInv.buffer_coh⟩
      exact commitAndDrain_inv hInv1 h1 h2 h3
    · rw [if_neg hp]
      have hins : insertA s.buffer node.key node =
          s.buffer ++ [(node.key, node)] :=
        insertA_not_contains node ((containsA_false_iff _ _).mpr h3)
      have hkeys : keysOf (insertA s.buffer node.key node) =
          keysOf s.buffer ++ [node.key] := by
        rw [hins]
        simp [keysOf]
      refine ⟨?_, ?_, ?_, ?_, ?_, ?_, ?_⟩
      · exact hInv.root_store
      · show s.root.key ∉ keysOf (insertA s.buffer node.key node)
        rw [hkeys]
        intro hmem
        rcases List.mem_append.mp hmem with h | h
        · exact hInv.root_buffer h
        · rw [List.mem_singleton] at h
          exact h1 h.symm
      · exact hInv.store_nodup
      · show (keysOf (insertA s.buffer node.key node)).Nodup
        rw [hkeys, List.nodup_append]
        refine ⟨hInv.buffer_nodup, List.nodup_singleton _, ?_⟩
        intro a ha hb
        rw [List.mem_singleton] at hb
        exact h3 (hb ▸ ha)
      · intro y hy
        show y ∉ keysOf (insertA s.buffer node.key node)
        rw [hkeys]
        intro hmem
        rcases List.mem_append.mp hmem with h | h
        · exact hInv.disj y hy h
        · rw [List.mem_singleton] at h
          subst h
          exact h2 hy
      · exact hInv.store_coh
      · intro p hp
        rw [show ({ s with buffer := insertA s.buffer node.key node } :
            Organizer K M).buffer = s.buffer ++ [(node.key, node)] from hins] at hp
        rcases List.mem_append.mp hp with h | h
        · exact hInv.buffer_coh p h
        · rw [List.mem_singleton] at h
          subst h
          rfl

theorem insert_inv {K M : Type} [DecidableEq K] [Inhabited K]
    {s s1 : Organizer K M} {node : ReorgNode K M} {mv : Option Bool}
    (hInv : OrgInv s) (h1 : node.key ≠ s.root.key)
    (h2 : node.key ∉ keysOf s.nodes_by_key) (h3 : node.key ∉ keysOf s.buffer)
    (hins : insert s node mv = some s1) : OrgInv s1 := by
  rw [insert] at hins
  by_cases hg1 : node.height ≤ allowed_oldest s
  · rw [if_pos hg1] at hins
    obtain rfl := Option.some.inj hins
    exact hInv
  · rw [if_neg hg1] at hins
    by_cases hg2 : containsA s.nodes_by_key node.parent = false ∧
        node.height ≤ s.height
    · rw [if_pos hg2] at hins
      obtain rfl := Option.some.inj hins
      exact hInv
    · rw [if_neg hg2] at hins
      cases hadv : advanceRoot s mv with
      | none =>
        simp only [hadv] at hins
        exact Option.noConfusion hins
      | some sa =>
        simp only [hadv] at hins
        obtain rfl := Option.some.inj hins
        obtain ⟨hIa, hbuf, hroot, hkeys⟩ := advanceRoot_inv hInv hadv
        refine attachAndFinish_inv hIa ?_ ?_ ?_
        · rcases hroot with h | h
          · rw [h]
            exact h1
          · intro hceq
            rw [← hceq] at h
            exact h2 h
        · intro hmem
          exact h2 (hkeys _ hmem)
        · rw [hbuf]
          exact h3

theorem initOrg_inv {K M : Type} [DecidableEq K] {s : Organizer K M}
    {r : ReorgNode K M} (hInv : OrgInv s)
    (h2 : r.key ∉ keysOf s.nodes_by_key) (h3 : r.key ∉ keysOf s.buffer) :
    OrgInv (initOrg s r) :=
  ⟨h2, h3, hInv.store_nodup, hInv.buffer_nodup, hInv.disj, hInv.store_coh,
    hInv.buffer_coh⟩

theorem new_with_inv {K M : Type} [DecidableEq K] (root0 : ReorgNode K M)
    (depth : Nat) (vb : Bool) : OrgInv (new_with root0 depth vb) := by
  refine ⟨?_, ?_, ?_, ?_, ?_, ?_, ?_⟩
  · intro h
    simp [new_with, keysOf] at h
  · intro h
    simp [new_with, keysOf] at h
  · simp [new_with, keysOf]
  · simp [new_with, keysOf]
  · intro y hy
    simp [new_with, keysOf] at hy
  · intro p hp
    simp [new_with] at hp
  · intro p hp
    simp [new_with] at hp

/-- The public operations a caller can issue against the engine. -/
inductive Op (K M : Type) where
  | insertRecord (node : ReorgNode K M) (mv : Option Bool)
  | deleteSubtree (k : K)
  | reinit (r : ReorgNode K M)

/-- Apply one public operation (`insert`, `delete_children` or `init`). -/
def applyOp {K M : Type} [DecidableEq K] [Inhabited K] (s : Organizer K M) :
    Op K M → Option (Organizer K M)
  | Op.insertRecord node mv => insert s node mv
  | Op.deleteSubtree k => some (delete_children s k).1
  | Op.reinit r => some (initOrg s r)

/-- Key freshness of an operation relative to the current state: inserted
records and re-initialization roots must carry keys not already present. -/
def FreshOp {K M : Type} [DecidableEq K] (s : Organizer K M) : Op K M → Prop
  | Op.insertRecord node _ => node.key ≠ s.root.key ∧
      node.key ∉ keysOf s.nodes_by_key ∧ node.key ∉ keysOf s.buffer
  | Op.deleteSubtree _ => True
  | Op.reinit r => r.key ∉ keysOf s.nodes_by_key ∧ r.key ∉ keysOf s.buffer

/-- A run of public operations in which every operation is fresh-keyed and
none of them hits an engine panic. -/
inductive FreshRun {K M : Type} [DecidableEq K] [Inhabited K] :
    Organizer K M → List (Op K M) → Organizer K M → Prop
  | nil (s : Organizer K M) : FreshRun s [] s
  | cons {s s1 s2 : Organizer K M} {op : Op K M} {ops : List (Op K M)} :
      FreshOp s op → applyOp s op = some s1 → FreshRun s1 ops s2 →
      FreshRun s (op :: ops) s2

theorem OrgInv_applyOp {K M : Type} [DecidableEq K] [Inhabited K]
    {s s1 : Organizer K M} {op : Op K M} (hInv : OrgInv s)
    (hf : FreshOp s op) (h : applyOp s op = some s1) : OrgInv s1 := by
  cases op with
  | insertRecord node mv => exact insert_inv hInv hf.1 hf.2.1 hf.2.2 h
  | deleteSubtree k =>
    obtain rfl := Option.some.inj h
    exact OrgInv_delete hInv k
  | reinit r =>
    obtain rfl := Option.some.inj h
    exact initOrg_inv hInv hf.1 hf.2

theorem OrgInv_run {K M : Type} [DecidableEq K] [Inhabited K]
    {s : Organizer K M} {ops : List (Op K M)} {sf : Organizer K M}
    (hrun : FreshRun s ops sf) : OrgInv s → OrgInv sf := by
  induction hrun with
  | nil => exact fun h => h
  | cons hf happ hr ih => exact fun h => ih (OrgInv_applyOp h hf happ)

/-- C9 (amended): root exclusivity holds as an invariant under fresh keys:
after any sequence of `insert`, `delete_subtree` and `init` calls starting
from `new_with`, in which every inserted record's key is new to the engine
(not the root's key, not a store key, not a buffer key) and every
re-initialization root's key is not already stored or buffered, the root's
key is not a key of the node store.  (Without the freshness condition the
invariant fails, see the counterexample.) -/
theorem C9_root_exclusivity_fresh_keys {K M : Type} [DecidableEq K]
    [Inhabited K] (root0 : ReorgNode K M) (depth : Nat) (vb : Bool)
    (ops : List (Op K M)) (sf : Organizer K M)
    (hrun : FreshRun (new_with root0 depth vb) ops sf) :
    containsA sf.nodes_by_key sf.root.key = false :=
  (containsA_false_iff _ _).mpr
    (OrgInv_run hrun (new_with_inv root0 depth vb)).root_store

/-- Witness for C9 at a concrete run (one `delete_subtree` call). -/
theorem C9_root_exclusivity_fresh_keys_witness :
    containsA
      (delete_children (new_with (exN 0 0 0 999) 255 false) 5).1.nodes_by_key
      (delete_children (new_with (exN 0 0 0 999) 255 false) 5).1.root.key =
      false :=
  C9_root_exclusivity_fresh_keys (exN 0 0 0 999) 255 false
    [Op.deleteSubtree 5] _
    (FreshRun.cons trivial rfl (FreshRun.nil _))

end AbandoningReorg
